import Mathlib

/-!
Shallow embedding of the `Set` bit-set library.

Sources embedded here: `src/inner.rs`, `src/ascending.rs`, `src/descending.rs`,
`src/borrowed.rs`, `src/owned.rs`.

Modelling conventions:
* `u64` words are modelled as `Nat` values kept below `2 ^ 64` by every
  operation (the operations only ever use `&&&`, `|||`, masking, and the
  all-ones constant `2 ^ 64 - 1`).
* `usize` values are modelled as `Nat`; arithmetic overflow of `usize` is not
  modelled (the claims about `grow_insert` explicitly exclude overflow of
  `value + 1`).
* The raw-pointer scans of the cursors are modelled as bounded scans over the
  word list; an out-of-bounds read (undefined behavior in the source, which is
  prevented by the documented safety preconditions) is modelled as the scan
  returning `none`.
* `Vec::reserve` is modelled as reserving exactly the requested amount (the
  minimal behaviour the standard library guarantees); a real allocator may
  reserve more, which only makes buffers longer than in this model.
-/

set_option maxHeartbeats 1000000

namespace Inner

/-- from `inner.rs`: `bits_to_chunk(index) = index / Inner::BITS` with 64-bit words. -/
def bits_to_chunk (index : Nat) : Nat := index / 64

/-- from `inner.rs`: `chunk_to_bits(index) = index * Inner::BITS`. -/
def chunk_to_bits (index : Nat) : Nat := index * 64

/-- from `inner.rs`: `mask(bit) = 1 << (bit % Inner::BITS)`. -/
def mask (bit : Nat) : Nat := 1 <<< (bit % 64)

/-- from `inner.rs`: `get(inner, bit) = inner & mask(bit) != 0`. -/
def get (inner bit : Nat) : Bool := inner &&& mask bit != 0

/-- Population count of the `f` lowest bits of `n` (bit loop). -/
def popcountAux : Nat → Nat → Nat
  | 0, _ => 0
  | f + 1, n => n % 2 + popcountAux f (n / 2)

/-- `u64::count_ones`: for a word `n < 2 ^ 64` this is exactly the number of
    set bits of `n`. -/
def popcount (n : Nat) : Nat := popcountAux 64 n

/-- Trailing-zero count of the `f` lowest bits of `n` (returns `f` at `0`). -/
def ctzAux : Nat → Nat → Nat
  | 0, _ => 0
  | f + 1, n => if n % 2 = 1 then 0 else ctzAux f (n / 2) + 1

/-- `u64::trailing_zeros` (returns 64 on input 0). -/
def ctz (n : Nat) : Nat := ctzAux 64 n

/-- Bit length of the `f` lowest bits of `n` (position of highest set bit + 1). -/
def bitLenAux : Nat → Nat → Nat
  | 0, _ => 0
  | f + 1, n => if n = 0 then 0 else bitLenAux f (n / 2) + 1

/-- Bit length of a word `n < 2 ^ 64`. -/
def bitLen (n : Nat) : Nat := bitLenAux 64 n

/-- `u64::leading_zeros` for a word `n < 2 ^ 64`. -/
def clz (n : Nat) : Nat := 64 - bitLen n

/-- from `inner.rs`: the word iterator `Iter { inner, remaining }`. -/
structure Iter where
  inner : Nat
  remaining : Nat
deriving DecidableEq

/-- from `inner.rs`: `Iter::new(inner)` sets `remaining = inner.count_ones()`. -/
def Iter.new (inner : Nat) : Iter := ⟨inner, popcount inner⟩

/-- from `inner.rs`, `Iterator::next` for `Iter`: checked-decrement `remaining`,
    return the trailing-zero count, then clear the lowest bit with
    `inner &= inner - 1`.  (The `unreachable_unchecked` hint for
    `remaining > 64` has no effect on defined executions and is omitted.) -/
def Iter.next (s : Iter) : Option (Nat × Iter) :=
  match s.remaining with
  | 0 => none
  | r + 1 => some (ctz s.inner, ⟨s.inner &&& (s.inner - 1), r⟩)

/-- from `inner.rs`, `DoubleEndedIterator::next_back` for `Iter`: checked-
    decrement `remaining`, compute `position = inner.leading_zeros()`, mask
    with `(Inner::MAX >> 1) >> position` (written `(2 ^ 63 - 1) >>> position`)
    and return `BITS - position - 1`. -/
def Iter.nextBack (s : Iter) : Option (Nat × Iter) :=
  match s.remaining with
  | 0 => none
  | r + 1 =>
    let position := clz s.inner
    some (64 - position - 1, ⟨s.inner &&& ((2 ^ 63 - 1) >>> position), r⟩)

end Inner

/-! Spec-side bit lists: `lowBits f n` is the increasing list of set-bit
    positions of `n` below `f`. -/

def lowBits : Nat → Nat → List Nat
  | 0, _ => []
  | f + 1, n => (if n % 2 = 1 then [0] else []) ++ (lowBits f (n / 2)).map (· + 1)

theorem lowBits_eq_filter (f : Nat) : ∀ n : Nat,
    lowBits f n = (List.range f).filter (fun b => n.testBit b) := by
  induction f with
  | zero => intro n; simp [lowBits]
  | succ f ih =>
    intro n
    rw [List.range_succ_eq_map]
    rw [List.filter_cons]
    simp only [Nat.testBit_zero]
    rw [List.filter_map]
    have hcong : (List.range f).filter ((fun b => n.testBit b) ∘ Nat.succ)
        = (List.range f).filter (fun b => (n / 2).testBit b) := by
      apply List.filter_congr
      intro x _
      simp [Function.comp, Nat.testBit_succ]
    rw [hcong, ← ih (n / 2)]
    by_cases h : n % 2 = 1
    · simp [lowBits, h, Nat.succ_eq_add_one]
    · simp [lowBits, h, Nat.succ_eq_add_one]

theorem lowBits_zero (f : Nat) : lowBits f 0 = [] := by
  rw [lowBits_eq_filter]
  simp

theorem lowBits_length (f : Nat) : ∀ n : Nat,
    (lowBits f n).length = Inner.popcountAux f n := by
  induction f with
  | zero => intro n; simp [lowBits, Inner.popcountAux]
  | succ f ih =>
    intro n
    have h2 : n % 2 = 0 ∨ n % 2 = 1 := Nat.mod_two_eq_zero_or_one n
    rcases h2 with h | h <;>
      simp [lowBits, Inner.popcountAux, h, ih] <;> omega

theorem mem_lowBits {f n b : Nat} :
    b ∈ lowBits f n ↔ b < f ∧ n.testBit b = true := by
  rw [lowBits_eq_filter]
  simp [List.mem_filter, List.mem_range]

theorem lowBits_sorted (f : Nat) : ∀ n : Nat,
    (lowBits f n).Pairwise (· < ·) := by
  induction f with
  | zero => intro n; simp [lowBits]
  | succ f ih =>
    intro n
    apply List.pairwise_append.2
    refine ⟨?_, ?_, ?_⟩
    · by_cases h : n % 2 = 1 <;> simp [h]
    · exact (List.pairwise_map).2 ((ih (n / 2)).imp (by omega))
    · intro a ha b hb
      by_cases h : n % 2 = 1
      · simp [h] at ha
        simp [List.mem_map] at hb
        omega
      · simp [h] at ha

theorem popcount_eq_countP (n : Nat) :
    Inner.popcount n = (List.range 64).countP (fun b => n.testBit b) := by
  rw [List.countP_eq_length_filter, ← lowBits_eq_filter, lowBits_length]
  rfl

theorem popcount_le (n : Nat) : Inner.popcount n ≤ 64 := by
  rw [popcount_eq_countP]
  calc (List.range 64).countP (fun b => n.testBit b)
      ≤ (List.range 64).length := List.countP_le_length _
    _ = 64 := by simp

theorem popcount_eq_zero_iff {n : Nat} (h : n < 2 ^ 64) :
    Inner.popcount n = 0 ↔ n = 0 := by
  constructor
  · intro h0
    have hl : (lowBits 64 n).length = 0 := by
      rw [lowBits_length]; exact h0
    have hempty : lowBits 64 n = [] := List.length_eq_zero.1 hl
    apply Nat.eq_of_testBit_eq
    intro i
    simp only [Nat.zero_testBit]
    by_cases hi : i < 64
    · by_contra hbit
      have : i ∈ lowBits 64 n := mem_lowBits.2 ⟨hi, by simpa using hbit⟩
      simp [hempty] at this
    · exact Nat.testBit_lt_two_pow (lt_of_lt_of_le h (Nat.pow_le_pow_right (by omega) (by omega)))
  · intro h0
    subst h0
    have := lowBits_length 64 0
    rw [lowBits_zero] at this
    simpa [Inner.popcount] using this.symm

/-! Arithmetic facts about clearing the lowest set bit and masking off the
    highest set bit, used by the word iterator. -/

theorem land_sub_one_of_odd {n : Nat} (h : n % 2 = 1) : n &&& (n - 1) = n - 1 := by
  apply Nat.eq_of_testBit_eq
  intro i
  rw [Nat.testBit_and]
  cases i with
  | zero =>
    have : (n - 1) % 2 = 0 := by omega
    simp [Nat.testBit_zero, this]
  | succ i =>
    simp only [Nat.testBit_succ]
    have : (n - 1) / 2 = n / 2 := by omega
    rw [this, Bool.and_self]

theorem land_sub_one_of_even {n : Nat} (h : n % 2 = 0) :
    n &&& (n - 1) = 2 * ((n / 2) &&& (n / 2 - 1)) := by
  rcases Nat.eq_zero_or_pos n with h0 | h0
  · subst h0; simp
  apply Nat.eq_of_testBit_eq
  intro i
  rw [Nat.testBit_and]
  cases i with
  | zero =>
    have h1 : n % 2 = 0 := h
    have h2 : (2 * (n / 2 &&& (n / 2 - 1))) % 2 = 0 := by omega
    simp [Nat.testBit_zero, h1, h2]
  | succ i =>
    simp only [Nat.testBit_succ]
    have h1 : (n - 1) / 2 = n / 2 - 1 := by omega
    have h2 : 2 * (n / 2 &&& (n / 2 - 1)) / 2 = n / 2 &&& (n / 2 - 1) := by omega
    rw [h1, h2, Nat.testBit_and]

theorem lowBits_step {f n : Nat} (h0 : n ≠ 0) (hf : n < 2 ^ f) :
    lowBits f n = Inner.ctzAux f n :: lowBits f (n &&& (n - 1)) := by
  induction f generalizing n with
  | zero => simp at hf; omega
  | succ f ih =>
    have h2 : n % 2 = 0 ∨ n % 2 = 1 := Nat.mod_two_eq_zero_or_one n
    rcases h2 with h | h
    · -- even case: recurse on n / 2
      have hne : n / 2 ≠ 0 := by omega
      have hlt : n / 2 < 2 ^ f := by
        have : 2 ^ (f + 1) = 2 * 2 ^ f := by ring
        omega
      have hrec := ih hne hlt
      rw [land_sub_one_of_even h]
      have hmod : 2 * (n / 2 &&& (n / 2 - 1)) % 2 = 0 := by omega
      have hdiv : 2 * (n / 2 &&& (n / 2 - 1)) / 2 = n / 2 &&& (n / 2 - 1) := by omega
      simp only [lowBits, Inner.ctzAux, h, hmod, hdiv]
      rw [hrec]
      simp
    · -- odd case: lowest bit is 0
      have hm : (n - 1) % 2 = 0 := by omega
      have hd : (n - 1) / 2 = n / 2 := by omega
      rw [land_sub_one_of_odd h]
      simp only [lowBits, Inner.ctzAux, h, hm, hd]
      simp

theorem bitLenAux_le (f : Nat) : ∀ n : Nat, Inner.bitLenAux f n ≤ f := by
  induction f with
  | zero => intro n; simp [Inner.bitLenAux]
  | succ f ih =>
    intro n
    by_cases h : n = 0 <;> simp [Inner.bitLenAux, h]
    exact ih (n / 2)

theorem bitLenAux_pos {f n : Nat} (h : n ≠ 0) : 0 < Inner.bitLenAux (f + 1) n := by
  simp [Inner.bitLenAux, h]

theorem bitLenAux_zero (f : Nat) : Inner.bitLenAux f 0 = 0 := by
  cases f <;> simp [Inner.bitLenAux]

theorem lowBits_backstep {f n : Nat} (h0 : n ≠ 0) (hf : n < 2 ^ f) :
    lowBits f n = lowBits f (n % 2 ^ (Inner.bitLenAux f n - 1))
      ++ [Inner.bitLenAux f n - 1] := by
  induction f generalizing n with
  | zero => simp at hf; omega
  | succ f ih =>
    by_cases h1 : n = 1
    · subst h1
      have hb : Inner.bitLenAux (f + 1) 1 = 1 := by
        simp [Inner.bitLenAux, bitLenAux_zero]
      rw [hb]
      simp [lowBits, lowBits_zero]
    · -- n ≥ 2
      have hm : n / 2 ≠ 0 := by omega
      have hlt : n / 2 < 2 ^ f := by
        have : 2 ^ (f + 1) = 2 * 2 ^ f := by ring
        omega
      have hrec := ih hm hlt
      have hbl : Inner.bitLenAux (f + 1) n = Inner.bitLenAux f (n / 2) + 1 := by
        simp [Inner.bitLenAux, h0]
      set g := Inner.bitLenAux f (n / 2) - 1 with hg
      have hpos : 0 < Inner.bitLenAux f (n / 2) := by
        cases f with
        | zero => simp at hlt; omega
        | succ f => exact bitLenAux_pos hm
      have hbl1 : Inner.bitLenAux (f + 1) n - 1 = g + 1 := by omega
      rw [hbl1]
      -- low bits of the remainder
      have hmod2 : n % 2 ^ (g + 1) % 2 = n % 2 := by
        have : (2 : Nat) ∣ 2 ^ (g + 1) := dvd_pow_self 2 (by omega)
        exact Nat.mod_mod_of_dvd n this
      have hdiv2 : n % 2 ^ (g + 1) / 2 = n / 2 % 2 ^ g := by
        have h2 : (2 : Nat) ^ (g + 1) = 2 * 2 ^ g := by ring
        rw [h2]
        exact Nat.mod_mul_right_div_self n 2 (2 ^ g)
      have h2 : n % 2 = 0 ∨ n % 2 = 1 := Nat.mod_two_eq_zero_or_one n
      rcases h2 with h | h <;>
      · simp only [lowBits, hmod2, hdiv2, h]
        rw [hrec]
        simp

theorem popcount_land_sub_one {n : Nat} (h0 : n ≠ 0) (hf : n < 2 ^ 64) :
    Inner.popcount (n &&& (n - 1)) + 1 = Inner.popcount n := by
  have := congrArg List.length (lowBits_step h0 hf)
  simp only [List.length_cons, lowBits_length] at this
  simpa [Inner.popcount] using this.symm

theorem shiftRight_two_pow_sub_one {p : Nat} (hp : p ≤ 63) :
    (2 ^ 63 - 1) >>> p = 2 ^ (63 - p) - 1 := by
  apply Nat.eq_of_testBit_eq
  intro j
  rw [Nat.testBit_shiftRight]
  rw [Nat.testBit_two_pow_sub_one, Nat.testBit_two_pow_sub_one]
  by_cases h : p + j < 63
  · simp [h]; omega
  · simp [h]; omega

theorem bitLen_le (n : Nat) : Inner.bitLen n ≤ 64 := bitLenAux_le 64 n

theorem bitLen_pos {n : Nat} (h : n ≠ 0) : 0 < Inner.bitLen n := bitLenAux_pos h

/-- `Iter::next_back` on a nonzero bounded word: yields the highest set bit
    and keeps the bits strictly below it. -/
theorem Iter_nextBack_eq {n r : Nat} (h0 : n ≠ 0) (hf : n < 2 ^ 64) :
    Inner.Iter.nextBack ⟨n, r + 1⟩ =
      some (Inner.bitLen n - 1, ⟨n % 2 ^ (Inner.bitLen n - 1), r⟩) := by
  have hL1 : 0 < Inner.bitLen n := bitLen_pos h0
  have hL2 : Inner.bitLen n ≤ 64 := bitLen_le n
  have hclz : Inner.clz n = 64 - Inner.bitLen n := rfl
  have hp : Inner.clz n ≤ 63 := by rw [hclz]; omega
  simp only [Inner.Iter.nextBack]
  rw [shiftRight_two_pow_sub_one hp]
  have h63 : 63 - Inner.clz n = Inner.bitLen n - 1 := by rw [hclz]; omega
  rw [h63, Nat.and_pow_two_sub_one_eq_mod]
  have hval : 64 - Inner.clz n - 1 = Inner.bitLen n - 1 := by rw [hclz]; omega
  rw [hval]

theorem popcount_mod_backstep {n : Nat} (h0 : n ≠ 0) (hf : n < 2 ^ 64) :
    Inner.popcount (n % 2 ^ (Inner.bitLen n - 1)) + 1 = Inner.popcount n := by
  have := congrArg List.length (lowBits_backstep h0 hf)
  simp only [List.length_append, List.length_cons, List.length_nil, lowBits_length] at this
  simpa [Inner.popcount, Inner.bitLen] using this.symm

/-! Chunk-level specification: total population count of a word list, and the
    ascending list of global set-bit indices. -/

def totalPop : List Nat → Nat
  | [] => 0
  | w :: rest => Inner.popcount w + totalPop rest

/-- Spec-side: the increasing list of global indices of set bits of a buffer. -/
def ascSpec : List Nat → List Nat
  | [] => []
  | w :: rest => lowBits 64 w ++ (ascSpec rest).map (· + 64)

theorem ascSpec_length : ∀ data : List Nat, (ascSpec data).length = totalPop data := by
  intro data
  induction data with
  | nil => simp [ascSpec, totalPop]
  | cons w rest ih =>
    simp [ascSpec, totalPop, ih, lowBits_length, Inner.popcount]

theorem ascSpec_eq_nil_of_totalPop {data : List Nat} (h : totalPop data = 0) :
    ascSpec data = [] := by
  have := ascSpec_length data
  rw [h] at this
  exact List.length_eq_zero.1 this

theorem mem_ascSpec {data : List Nat} {i : Nat} :
    i ∈ ascSpec data ↔ ((data.getD (i / 64) 0).testBit (i % 64) = true) := by
  induction data generalizing i with
  | nil => simp [ascSpec]
  | cons w rest ih =>
    simp only [ascSpec, List.mem_append, List.mem_map]
    constructor
    · rintro (h | ⟨j, hj, rfl⟩)
      · rcases mem_lowBits.1 h with ⟨hlt, hbit⟩
        have h1 : i / 64 = 0 := by omega
        have h2 : i % 64 = i := by omega
        simpa [h1, h2] using hbit
      · have h1 : (j + 64) / 64 = j / 64 + 1 := by omega
        have h2 : (j + 64) % 64 = j % 64 := by omega
        rw [h1, h2]
        simpa using ih.1 hj
    · intro h
      by_cases hi : i < 64
      · left
        have h1 : i / 64 = 0 := by omega
        have h2 : i % 64 = i := by omega
        rw [h1, h2] at h
        exact mem_lowBits.2 ⟨hi, by simpa using h⟩
      · right
        refine ⟨i - 64, ?_, by omega⟩
        apply ih.2
        have h1 : i / 64 = (i - 64) / 64 + 1 := by omega
        have h2 : i % 64 = (i - 64) % 64 := by omega
        rw [h1, h2] at h
        simpa using h

theorem ascSpec_sorted : ∀ data : List Nat, (ascSpec data).Pairwise (· < ·) := by
  intro data
  induction data with
  | nil => simp [ascSpec]
  | cons w rest ih =>
    simp only [ascSpec]
    apply List.pairwise_append.2
    refine ⟨lowBits_sorted 64 w, (List.pairwise_map).2 (ih.imp (by omega)), ?_⟩
    intro a ha b hb
    rcases mem_lowBits.1 ha with ⟨hlt, _⟩
    simp only [List.mem_map] at hb
    omega

theorem ascSpec_append : ∀ l₁ l₂ : List Nat,
    ascSpec (l₁ ++ l₂) = ascSpec l₁ ++ (ascSpec l₂).map (· + 64 * l₁.length) := by
  intro l₁
  induction l₁ with
  | nil => intro l₂; simp [ascSpec]
  | cons w rest ih =>
    intro l₂
    have h1 : ascSpec ((w :: rest) ++ l₂)
        = lowBits 64 w ++ (ascSpec (rest ++ l₂)).map (· + 64) := rfl
    have h2 : ascSpec (w :: rest) = lowBits 64 w ++ (ascSpec rest).map (· + 64) := rfl
    rw [h1, ih, h2, List.map_append, List.map_map, List.append_assoc]
    have h3 : ((fun x => x + 64) ∘ fun x => x + 64 * rest.length)
        = (fun x => x + 64 * (w :: rest).length) := by
      funext x
      simp only [Function.comp_apply, List.length_cons]
      ring
    rw [h3]

theorem totalPop_append : ∀ l₁ l₂ : List Nat,
    totalPop (l₁ ++ l₂) = totalPop l₁ + totalPop l₂ := by
  intro l₁
  induction l₁ with
  | nil => intro l₂; simp [totalPop]
  | cons w rest ih => intro l₂; simp [totalPop, ih]; ring

theorem popcount_zero : Inner.popcount 0 = 0 := by
  have := lowBits_length 64 0
  rw [lowBits_zero] at this
  simpa [Inner.popcount] using this.symm

/-- from `borrowed.rs`: a borrowed set.  The `&[Inner]` reference is modelled
    by the word list itself; the safety precondition of `Borrowed::new` (at
    least `len` set bits in `data`) appears as a hypothesis of the theorems. -/
structure Borrowed where
  data : List Nat
  len : Nat
deriving DecidableEq

/-- from `borrowed.rs`: `maximum() = chunk_to_bits(data.len())`. -/
def Borrowed.maximum (s : Borrowed) : Nat := Inner.chunk_to_bits s.data.length

/-- from `borrowed.rs`: `is_empty() = (len() == 0)`. -/
def Borrowed.is_empty (s : Borrowed) : Bool := s.len == 0

/-- from `borrowed.rs`: `contains(index)`: the chunk is within the buffer and
    its bit is set (the slice indexing is guarded by the bounds test). -/
def Borrowed.contains (s : Borrowed) (index : Nat) : Bool :=
  let offset := Inner.bits_to_chunk index
  decide (offset < s.data.length) && Inner.get (s.data.getD offset 0) index

/-- from `ascending.rs`: the cursor state.  The `start` pointer together with
    the buffer it points into is modelled by `data`; the source field `end`
    is called `endPos` (`end` is a Lean keyword). -/
structure Ascending where
  data : List Nat
  endPos : Nat
  len : Nat
  cached : Inner.Iter
deriving DecidableEq

/-- from `ascending.rs`: `Ascending::new(data, remaining)`. -/
def Ascending.new (data : List Nat) (remaining : Nat) : Ascending :=
  ⟨data, 0, remaining, Inner.Iter.new 0⟩

/-- Scan helper for `find_non_zero`: `l` is the list of words of the buffer
    from position `pos` on.  Each zero word is skipped (advancing the
    position); the first nonzero word `w` stops the scan, returning the
    position just past it together with `w`.  Running past the end of the
    buffer is an out-of-bounds read in the source (undefined behavior,
    excluded by the documented safety precondition); it is modelled by
    `none`. -/
def findAux : List Nat → Nat → Option (Nat × Nat)
  | [], _ => none
  | w :: rest, pos => if w ≠ 0 then some (pos + 1, w) else findAux rest (pos + 1)

/-- from `ascending.rs`: `find_non_zero`. -/
def Ascending.findNonZero (s : Ascending) : Option (Nat × Nat) :=
  findAux (s.data.drop s.endPos) s.endPos

/-- The tail of `Ascending::next`: `self.cached.next().map(|index|
    chunk_to_bits(self.end - 1) + index)`. -/
def Ascending.emit (s : Ascending) : Option Nat × Ascending :=
  match Inner.Iter.next s.cached with
  | some (index, cached) =>
    (some (Inner.chunk_to_bits (s.endPos - 1) + index), { s with cached := cached })
  | none => (none, s)

/-- from `ascending.rs`: `Iterator::next` for `Ascending`. -/
def Ascending.next (s : Ascending) : Option Nat × Ascending :=
  match s.len with
  | 0 => (none, s)
  | n + 1 =>
    let s₁ : Ascending := { s with len := n }
    if s₁.cached.remaining = 0 then
      match s₁.findNonZero with
      | some (pos, w) =>
        Ascending.emit { s₁ with endPos := pos, cached := Inner.Iter.new w }
      | none => (none, s₁)
    else
      Ascending.emit s₁

def Ascending.takeAux : Nat → Ascending → List Nat
  | 0, _ => []
  | f + 1, s =>
    match Ascending.next s with
    | (some v, s') => v :: Ascending.takeAux f s'
    | (none, _) => []

/-- All values yielded by the cursor: each yielding step decreases `len` by
    one and the cursor stops at `len = 0`, so `len` bounds the number of
    yields. -/
def Ascending.toList (s : Ascending) : List Nat := Ascending.takeAux s.len s

def Ascending.stepN : Nat → Ascending → Ascending
  | 0, s => s
  | k + 1, s => Ascending.stepN k (Ascending.next s).2

/-- The states of the cursor reachable under the safety precondition of
    `Ascending::new`: bounded words, position inside the buffer, and the
    remaining count exactly the number of set bits still to be produced. -/
def AscValid (s : Ascending) : Prop :=
  (∀ w ∈ s.data, w < 2 ^ 64) ∧
  s.endPos ≤ s.data.length ∧
  s.cached.inner < 2 ^ 64 ∧
  s.cached.remaining = Inner.popcount s.cached.inner ∧
  s.len = s.cached.remaining + totalPop (s.data.drop s.endPos)

/-- Spec-side residual output of an ascending cursor state. -/
def ascRest (s : Ascending) : List Nat :=
  (lowBits 64 s.cached.inner).map (· + 64 * (s.endPos - 1)) ++
    (ascSpec (s.data.drop s.endPos)).map (· + 64 * s.endPos)

theorem findAux_spec : ∀ (l : List Nat) (pos : Nat), totalPop l ≠ 0 →
    ∃ j w, findAux l pos = some (pos + j + 1, w) ∧ j < l.length ∧ w ≠ 0 ∧ w ∈ l ∧
      totalPop l = Inner.popcount w + totalPop (l.drop (j + 1)) ∧
      ascSpec l = (lowBits 64 w).map (· + 64 * j)
        ++ (ascSpec (l.drop (j + 1))).map (· + 64 * (j + 1)) := by
  intro l
  induction l with
  | nil => intro pos h; simp [totalPop] at h
  | cons w rest ih =>
    intro pos h
    by_cases hw : w = 0
    · subst hw
      have h' : totalPop rest ≠ 0 := by
        simpa [totalPop, popcount_zero] using h
      rcases ih (pos + 1) h' with ⟨j, w', hfind, hlen, hne, hmem, hpop', hspec⟩
      refine ⟨j + 1, w', ?_, by simpa using Nat.succ_lt_succ hlen, hne,
        List.mem_cons_of_mem _ hmem, ?_, ?_⟩
      · have harr : pos + (j + 1) + 1 = pos + 1 + j + 1 := by omega
        rw [harr]
        simpa [findAux] using hfind
      · simpa [totalPop, popcount_zero, List.drop_succ_cons] using hpop'
      · have hcons : ascSpec (0 :: rest) = (ascSpec rest).map (· + 64) := by
          simp [ascSpec, lowBits_zero]
        rw [hcons, hspec, List.map_append, List.map_map, List.map_map]
        simp only [List.drop_succ_cons]
        congr 1
    · refine ⟨0, w, by simp [findAux, hw], by simp, hw, List.mem_cons_self _ _, ?_, ?_⟩
      · simp [totalPop, List.drop_succ_cons]
      · simp only [ascSpec, List.drop_succ_cons, Nat.mul_zero, Nat.mul_one]
        congr 1
        simp

theorem ascRest_nil {s : Ascending} (hv : AscValid s) (h : s.len = 0) :
    ascRest s = [] := by
  obtain ⟨hb, he, hci, hcr, hlen⟩ := hv
  rw [h] at hlen
  have h1 : s.cached.remaining = 0 := by omega
  have h2 : totalPop (s.data.drop s.endPos) = 0 := by omega
  have h3 : lowBits 64 s.cached.inner = [] := by
    apply List.length_eq_zero.1
    rw [lowBits_length]
    have : Inner.popcount s.cached.inner = 0 := by rw [← hcr]; exact h1
    exact this
  rw [ascRest, h3, ascSpec_eq_nil_of_totalPop h2]
  simp

theorem asc_step {s : Ascending} (hv : AscValid s) (h : 0 < s.len) :
    ∃ v s', Ascending.next s = (some v, s') ∧ AscValid s' ∧ s'.len + 1 = s.len ∧
      ascRest s = v :: ascRest s' := by
  obtain ⟨hb, he, hci, hcr, hlen⟩ := hv
  obtain ⟨data, endPos, len, cinner, crem⟩ := s
  simp only at hb he hci hcr hlen h ⊢
  obtain ⟨n, rfl⟩ : ∃ n, len = n + 1 := ⟨len - 1, by omega⟩
  cases crem with
  | zero =>
    -- the cached iterator is exhausted: scan for the next nonzero word
    have hinner0 : cinner = 0 := (popcount_eq_zero_iff hci).1 (by omega)
    subst hinner0
    have htp : totalPop (data.drop endPos) ≠ 0 := by
      rw [popcount_zero] at hcr
      omega
    rcases findAux_spec (data.drop endPos) endPos htp with
      ⟨j, w, hfind, hjlen, hwne, hwmem, hpop, hspec⟩
    have hwb : w < 2 ^ 64 := hb w (List.mem_of_mem_drop hwmem)
    have hpw : Inner.popcount w ≠ 0 := fun h0 => hwne ((popcount_eq_zero_iff hwb).1 h0)
    obtain ⟨pc, hpc⟩ : ∃ pc, Inner.popcount w = pc + 1 :=
      ⟨Inner.popcount w - 1, by omega⟩
    have hdd : (data.drop endPos).drop (j + 1) = data.drop (endPos + j + 1) := by
      rw [List.drop_drop, ← Nat.add_assoc]
    have hstep : lowBits 64 w = Inner.ctz w :: lowBits 64 (w &&& (w - 1)) :=
      lowBits_step hwne hwb
    refine ⟨Inner.chunk_to_bits (endPos + j) + Inner.ctz w,
      ⟨data, endPos + j + 1, n, ⟨w &&& (w - 1), pc⟩⟩, ?_, ?_, ?_, ?_⟩
    · simp only [Ascending.next, Ascending.findNonZero, List.drop, hfind,
        Ascending.emit, Inner.Iter.new, hpc, Inner.Iter.next]
      simp [Nat.add_sub_cancel]
    · refine ⟨hb, ?_, lt_of_le_of_lt Nat.and_le_left hwb, ?_, ?_⟩
      · show endPos + j + 1 ≤ data.length
        have := List.length_drop endPos data
        omega
      · show pc = Inner.popcount (w &&& (w - 1))
        have := popcount_land_sub_one hwne hwb
        omega
      · show n = pc + totalPop (data.drop (endPos + j + 1))
        rw [hdd] at hpop
        rw [popcount_zero] at hcr
        omega
    · rfl
    · simp only [ascRest, lowBits_zero, List.map_nil, List.nil_append]
      rw [hspec, List.map_append, List.map_map, List.map_map, hstep]
      rw [hdd]
      simp only [List.map_cons, Function.comp_apply, List.cons_append, Function.comp_def]
      rw [List.cons.injEq]
      refine ⟨?_, ?_⟩
      · simp only [Inner.chunk_to_bits]
        omega
      · have hm1 : ∀ x ∈ lowBits 64 (w &&& (w - 1)),
            x + 64 * j + 64 * endPos = x + 64 * (endPos + j + 1 - 1) := by
          intro x _
          omega
        have hm2 : ∀ x ∈ ascSpec (data.drop (endPos + j + 1)),
            x + 64 * (j + 1) + 64 * endPos = x + 64 * (endPos + j + 1) := by
          intro x _
          omega
        rw [List.map_congr_left hm1, List.map_congr_left hm2]
  | succ r =>
    -- the cached iterator still has bits
    have hwne : cinner ≠ 0 := by
      intro h0
      rw [h0, popcount_zero] at hcr
      omega
    have hstep : lowBits 64 cinner = Inner.ctz cinner :: lowBits 64 (cinner &&& (cinner - 1)) :=
      lowBits_step hwne hci
    refine ⟨Inner.chunk_to_bits (endPos - 1) + Inner.ctz cinner,
      ⟨data, endPos, n, ⟨cinner &&& (cinner - 1), r⟩⟩, ?_, ?_, ?_, ?_⟩
    · simp [Ascending.next, Ascending.emit, Inner.Iter.next]
    · refine ⟨hb, he, lt_of_le_of_lt Nat.and_le_left hci, ?_, ?_⟩
      · show r = Inner.popcount (cinner &&& (cinner - 1))
        have := popcount_land_sub_one hwne hci
        omega
      · show n = r + totalPop (data.drop endPos)
        omega
    · rfl
    · simp only [ascRest, hstep, List.map_cons, List.cons_append]
      rw [List.cons.injEq]
      refine ⟨?_, rfl⟩
      simp only [Inner.chunk_to_bits]
      omega

theorem asc_takeAux_eq : ∀ (n : Nat) (s : Ascending), s.len = n → AscValid s →
    Ascending.takeAux n s = ascRest s := by
  intro n
  induction n with
  | zero =>
    intro s hlen hv
    rw [ascRest_nil hv hlen]
    rfl
  | succ n ih =>
    intro s hlen hv
    rcases asc_step hv (by omega) with ⟨v, s', hnext, hv', hlen', hrest⟩
    have hs' : s'.len = n := by omega
    simp only [Ascending.takeAux, hnext]
    rw [ih s' hs' hv', hrest]

theorem asc_toList_eq {s : Ascending} (hv : AscValid s) :
    Ascending.toList s = ascRest s :=
  asc_takeAux_eq s.len s rfl hv

theorem AscValid_new {data : List Nat} (hb : ∀ w ∈ data, w < 2 ^ 64) :
    AscValid (Ascending.new data (totalPop data)) := by
  refine ⟨hb, by simp [Ascending.new], by norm_num [Ascending.new, Inner.Iter.new], ?_, ?_⟩
  · rfl
  · show totalPop data = Inner.popcount 0 + totalPop (data.drop 0)
    rw [popcount_zero, List.drop_zero]
    omega

theorem ascRest_new (data : List Nat) (len : Nat) :
    ascRest (Ascending.new data len) = ascSpec data := by
  show (lowBits 64 0).map _ ++ (ascSpec (data.drop 0)).map (· + 64 * 0) = ascSpec data
  rw [lowBits_zero, List.drop_zero]
  simp

theorem Ascending_emit_len (s : Ascending) : (Ascending.emit s).2.len = s.len := by
  rcases h : Inner.Iter.next s.cached with _ | ⟨i, c⟩ <;> simp [Ascending.emit, h]

theorem Ascending_next_len (s : Ascending) : (Ascending.next s).2.len = s.len - 1 := by
  obtain ⟨data, endPos, len, cached⟩ := s
  rcases len with _ | n
  · rfl
  · show (Ascending.next ⟨data, endPos, n + 1, cached⟩).2.len = n + 1 - 1
    simp only [Ascending.next]
    split
    · split
      · rw [Ascending_emit_len]
        rfl
      · rfl
    · rw [Ascending_emit_len]
      rfl

theorem Ascending_next_of_len_zero {s : Ascending} (h : s.len = 0) :
    Ascending.next s = (none, s) := by
  obtain ⟨data, endPos, len, cached⟩ := s
  have hl : len = 0 := h
  subst hl
  rfl

theorem Ascending_stepN_len (k : Nat) : ∀ s : Ascending, (Ascending.stepN k s).len = s.len - k := by
  induction k with
  | zero => intro s; simp [Ascending.stepN]
  | succ k ih =>
    intro s
    show (Ascending.stepN k (Ascending.next s).2).len = s.len - (k + 1)
    rw [ih, Ascending_next_len]
    omega

/-- from `borrowed.rs`: `ascending()` constructs the cursor from the buffer
    and the tracked cardinality. -/
def Borrowed.ascending (s : Borrowed) : Ascending := Ascending.new s.data s.len

theorem land_two_pow (n k : Nat) : n &&& 2 ^ k = if n.testBit k then 2 ^ k else 0 := by
  apply Nat.eq_of_testBit_eq
  intro i
  rw [Nat.testBit_and]
  by_cases h : n.testBit k
  · simp only [h, if_pos]
    rw [Nat.testBit_two_pow]
    by_cases hik : k = i
    · subst hik
      simp [h]
    · simp [hik]
  · simp only [h, if_neg, Bool.false_eq_true, not_false_iff, Nat.zero_testBit]
    rw [Nat.testBit_two_pow]
    by_cases hik : k = i
    · subst hik
      simp [h]
    · simp [hik]

theorem mask_eq (bit : Nat) : Inner.mask bit = 2 ^ (bit % 64) := by
  rw [Inner.mask, Nat.shiftLeft_eq, one_mul]

theorem get_eq_testBit (inner bit : Nat) :
    Inner.get inner bit = inner.testBit (bit % 64) := by
  rw [Inner.get, mask_eq, land_two_pow]
  by_cases h : inner.testBit (bit % 64) <;> simp [h]

theorem getD_zero_of_le {l : List Nat} {n : Nat} (h : l.length ≤ n) : l.getD n 0 = 0 := by
  rw [List.getD_eq_getElem?_getD, List.getElem?_eq_none h]
  rfl

theorem Borrowed_contains_eq (s : Borrowed) (i : Nat) :
    s.contains i = (s.data.getD (i / 64) 0).testBit (i % 64) := by
  show (decide (i / 64 < s.data.length) && Inner.get (s.data.getD (i / 64) 0) i) = _
  by_cases h : i / 64 < s.data.length
  · simp [h, get_eq_testBit]
  · simp only [h, decide_eq_true_eq, Bool.false_and, decide_False]
    rw [getD_zero_of_le (by omega)]
    simp

/-- from `descending.rs`: the cursor state (same layout as `Ascending`). -/
structure Descending where
  data : List Nat
  endPos : Nat
  len : Nat
  cached : Inner.Iter
deriving DecidableEq

/-- from `descending.rs`: `Descending::new(data, remaining)` starts with
    `end = data.len()`. -/
def Descending.new (data : List Nat) (remaining : Nat) : Descending :=
  ⟨data, data.length, remaining, Inner.Iter.new 0⟩

/-- Scan helper for the backward `find_non_zero`: decrement the position, read
    the word there, stop when it is nonzero.  Decrementing past the start of
    the buffer (underflow of `end` followed by a wild read, undefined behavior
    in the source, excluded by the safety precondition) is modelled by
    `none`. -/
def findBackAux : List Nat → Nat → Option (Nat × Nat)
  | _, 0 => none
  | data, e + 1 =>
    let w := data.getD e 0
    if w ≠ 0 then some (e, w) else findBackAux data e

/-- from `descending.rs`: `find_non_zero`. -/
def Descending.findNonZero (s : Descending) : Option (Nat × Nat) :=
  findBackAux s.data s.endPos

/-- The tail of `Descending::next`: `self.cached.next_back().map(|index|
    chunk_to_bits(self.end) + index)`. -/
def Descending.emit (s : Descending) : Option Nat × Descending :=
  match Inner.Iter.nextBack s.cached with
  | some (index, cached) =>
    (some (Inner.chunk_to_bits s.endPos + index), { s with cached := cached })
  | none => (none, s)

/-- from `descending.rs`: `Iterator::next` for `Descending`. -/
def Descending.next (s : Descending) : Option Nat × Descending :=
  match s.len with
  | 0 => (none, s)
  | n + 1 =>
    let s₁ : Descending := { s with len := n }
    if s₁.cached.remaining = 0 then
      match s₁.findNonZero with
      | some (pos, w) =>
        Descending.emit { s₁ with endPos := pos, cached := Inner.Iter.new w }
      | none => (none, s₁)
    else
      Descending.emit s₁

def Descending.takeAux : Nat → Descending → List Nat
  | 0, _ => []
  | f + 1, s =>
    match Descending.next s with
    | (some v, s') => v :: Descending.takeAux f s'
    | (none, _) => []

/-- All values yielded by the descending cursor. -/
def Descending.toList (s : Descending) : List Nat := Descending.takeAux s.len s

/-- Valid descending-cursor states: the region still to be scanned is the
    prefix below `endPos` plus the cached word. -/
def DescValid (s : Descending) : Prop :=
  (∀ w ∈ s.data, w < 2 ^ 64) ∧
  s.endPos ≤ s.data.length ∧
  s.cached.inner < 2 ^ 64 ∧
  s.cached.remaining = Inner.popcount s.cached.inner ∧
  s.len = s.cached.remaining + totalPop (s.data.take s.endPos)

/-- Spec-side residual output of a descending cursor state. -/
def descRest (s : Descending) : List Nat :=
  ((lowBits 64 s.cached.inner).map (· + 64 * s.endPos)).reverse ++
    (ascSpec (s.data.take s.endPos)).reverse

theorem take_succ_getD {data : List Nat} {e : Nat} (h : e < data.length) :
    data.take (e + 1) = data.take e ++ [data.getD e 0] := by
  rw [List.take_succ]
  congr 1
  rw [List.getElem?_eq_getElem h]
  simp [List.getD_eq_getElem?_getD, List.getElem?_eq_getElem h]

theorem findBackAux_spec : ∀ (e : Nat) (data : List Nat), totalPop (data.take e) ≠ 0 →
    ∃ j w, findBackAux data e = some (j, w) ∧ j < e ∧ j < data.length ∧
      w ≠ 0 ∧ w ∈ data ∧
      totalPop (data.take e) = totalPop (data.take j) + Inner.popcount w ∧
      ascSpec (data.take e) = ascSpec (data.take j) ++ (lowBits 64 w).map (· + 64 * j) := by
  intro e
  induction e with
  | zero => intro data h; simp [totalPop] at h
  | succ e ih =>
    intro data h
    by_cases hw : data.getD e 0 = 0
    · -- word at position e is zero (or the position is past the end)
      have heq : data.take (e + 1) = data.take e ∨
          data.take (e + 1) = data.take e ++ [0] := by
        by_cases hl : e < data.length
        · right
          rw [take_succ_getD hl, hw]
        · left
          rw [List.take_of_length_le (by omega), List.take_of_length_le (by omega)]
      have hpop_eq : totalPop (data.take (e + 1)) = totalPop (data.take e) := by
        rcases heq with heq | heq <;> rw [heq]
        rw [totalPop_append]
        simp [totalPop, popcount_zero]
      have hspec_eq : ascSpec (data.take (e + 1)) = ascSpec (data.take e) := by
        rcases heq with heq | heq <;> rw [heq]
        rw [ascSpec_append]
        simp [ascSpec, lowBits_zero]
      rcases ih data (by rw [← hpop_eq]; exact h) with
        ⟨j, w, hfind, hje, hjl, hwne, hwmem, hpop', hspec'⟩
      refine ⟨j, w, ?_, by omega, hjl, hwne, hwmem, ?_, ?_⟩
      · simp only [findBackAux]
        rw [if_neg (by simpa using hw)]
        exact hfind
      · rw [hpop_eq]
        exact hpop'
      · rw [hspec_eq]
        exact hspec'
    · -- nonzero word at position e
      have hl : e < data.length := by
        by_contra hle
        exact hw (getD_zero_of_le (by omega))
      have hmem : data.getD e 0 ∈ data := by
        rw [List.getD_eq_getElem?_getD, List.getElem?_eq_getElem hl]
        exact List.getElem_mem hl
      refine ⟨e, data.getD e 0, ?_, by omega, hl, hw, hmem, ?_, ?_⟩
      · simp only [findBackAux]
        rw [if_pos hw]
      · rw [take_succ_getD hl, totalPop_append]
        simp [totalPop]
      · rw [take_succ_getD hl, ascSpec_append]
        have hlen : (data.take e).length = e := by
          rw [List.length_take]
          omega
        rw [hlen]
        have hone : ascSpec [data.getD e 0] = lowBits 64 (data.getD e 0) := by
          simp [ascSpec]
        rw [hone]

theorem Descending_emit_of_nextBack {s : Descending} {i : Nat} {c : Inner.Iter}
    (h : Inner.Iter.nextBack s.cached = some (i, c)) :
    Descending.emit s = (some (Inner.chunk_to_bits s.endPos + i), { s with cached := c }) := by
  unfold Descending.emit
  rw [h]

theorem descRest_nil {s : Descending} (hv : DescValid s) (h : s.len = 0) :
    descRest s = [] := by
  obtain ⟨hb, he, hci, hcr, hlen⟩ := hv
  rw [h] at hlen
  have h1 : s.cached.remaining = 0 := by omega
  have h2 : totalPop (s.data.take s.endPos) = 0 := by omega
  have h3 : lowBits 64 s.cached.inner = [] := by
    apply List.length_eq_zero.1
    rw [lowBits_length]
    show Inner.popcount s.cached.inner = 0
    omega
  rw [descRest, h3, ascSpec_eq_nil_of_totalPop h2]
  simp

theorem desc_step {s : Descending} (hv : DescValid s) (h : 0 < s.len) :
    ∃ v s', Descending.next s = (some v, s') ∧ DescValid s' ∧ s'.len + 1 = s.len ∧
      descRest s = v :: descRest s' := by
  obtain ⟨hb, he, hci, hcr, hlen⟩ := hv
  obtain ⟨data, endPos, len, cinner, crem⟩ := s
  simp only at hb he hci hcr hlen h ⊢
  obtain ⟨n, rfl⟩ : ∃ n, len = n + 1 := ⟨len - 1, by omega⟩
  cases crem with
  | zero =>
    -- cached exhausted: scan backward for the next nonzero word
    have hinner0 : cinner = 0 := (popcount_eq_zero_iff hci).1 (by omega)
    subst hinner0
    have htp : totalPop (data.take endPos) ≠ 0 := by
      rw [popcount_zero] at hcr
      omega
    rcases findBackAux_spec endPos data htp with
      ⟨j, w, hfind, hje, hjl, hwne, hwmem, hpop, hspec⟩
    have hwb : w < 2 ^ 64 := hb w hwmem
    have hpw : Inner.popcount w ≠ 0 := fun h0 => hwne ((popcount_eq_zero_iff hwb).1 h0)
    obtain ⟨pc, hpc⟩ : ∃ pc, Inner.popcount w = pc + 1 :=
      ⟨Inner.popcount w - 1, by omega⟩
    have hstep : lowBits 64 w
        = lowBits 64 (w % 2 ^ (Inner.bitLen w - 1)) ++ [Inner.bitLen w - 1] :=
      lowBits_backstep hwne hwb
    refine ⟨Inner.chunk_to_bits j + (Inner.bitLen w - 1),
      ⟨data, j, n, ⟨w % 2 ^ (Inner.bitLen w - 1), pc⟩⟩, ?_, ?_, ?_, ?_⟩
    · have hnew : Inner.Iter.new w = ⟨w, pc + 1⟩ := by
        rw [Inner.Iter.new, hpc]
      have hnext : Descending.next ⟨data, endPos, n + 1, ⟨0, 0⟩⟩
          = Descending.emit ⟨data, j, n, ⟨w, pc + 1⟩⟩ := by
        simp only [Descending.next, Descending.findNonZero, hfind, hnew]
        rw [if_pos trivial]
      rw [hnext, Descending_emit_of_nextBack (Iter_nextBack_eq hwne hwb)]
    · refine ⟨hb, ?_, ?_, ?_, ?_⟩
      · show j ≤ data.length
        omega
      · exact lt_of_le_of_lt (Nat.mod_le _ _) hwb
      · show pc = Inner.popcount (w % 2 ^ (Inner.bitLen w - 1))
        have := popcount_mod_backstep hwne hwb
        omega
      · show n = pc + totalPop (data.take j)
        rw [popcount_zero] at hcr
        omega
    · rfl
    · simp only [descRest, lowBits_zero, List.map_nil, List.reverse_nil, List.nil_append]
      rw [hspec, List.reverse_append, hstep, List.map_append]
      rw [List.reverse_append]
      simp only [List.map_cons, List.map_nil, List.reverse_cons, List.reverse_nil,
        List.nil_append, List.cons_append]
      rw [List.cons.injEq]
      refine ⟨?_, rfl⟩
      simp only [Inner.chunk_to_bits]
      omega
  | succ r =>
    -- cached still holds bits
    have hwne : cinner ≠ 0 := by
      intro h0
      rw [h0, popcount_zero] at hcr
      omega
    have hstep : lowBits 64 cinner
        = lowBits 64 (cinner % 2 ^ (Inner.bitLen cinner - 1)) ++ [Inner.bitLen cinner - 1] :=
      lowBits_backstep hwne hci
    refine ⟨Inner.chunk_to_bits endPos + (Inner.bitLen cinner - 1),
      ⟨data, endPos, n, ⟨cinner % 2 ^ (Inner.bitLen cinner - 1), r⟩⟩, ?_, ?_, ?_, ?_⟩
    · have hnext : Descending.next ⟨data, endPos, n + 1, ⟨cinner, r + 1⟩⟩
          = Descending.emit ⟨data, endPos, n, ⟨cinner, r + 1⟩⟩ := by
        simp only [Descending.next]
        rw [if_neg (by exact Nat.succ_ne_zero r)]
      rw [hnext, Descending_emit_of_nextBack (Iter_nextBack_eq hwne hci)]
    · refine ⟨hb, he, ?_, ?_, ?_⟩
      · exact lt_of_le_of_lt (Nat.mod_le _ _) hci
      · show r = Inner.popcount (cinner % 2 ^ (Inner.bitLen cinner - 1))
        have := popcount_mod_backstep hwne hci
        omega
      · show n = r + totalPop (data.take endPos)
        omega
    · rfl
    · simp only [descRest, hstep, List.map_append, List.reverse_append]
      simp only [List.map_cons, List.map_nil, List.reverse_cons, List.reverse_nil,
        List.nil_append, List.cons_append]
      rw [List.cons.injEq]
      refine ⟨?_, rfl⟩
      simp only [Inner.chunk_to_bits]
      omega

theorem desc_takeAux_eq : ∀ (n : Nat) (s : Descending), s.len = n → DescValid s →
    Descending.takeAux n s = descRest s := by
  intro n
  induction n with
  | zero =>
    intro s hlen hv
    rw [descRest_nil hv hlen]
    rfl
  | succ n ih =>
    intro s hlen hv
    rcases desc_step hv (by omega) with ⟨v, s', hnext, hv', hlen', hrest⟩
    have hs' : s'.len = n := by omega
    simp only [Descending.takeAux, hnext]
    rw [ih s' hs' hv', hrest]

theorem desc_toList_eq {s : Descending} (hv : DescValid s) :
    Descending.toList s = descRest s :=
  desc_takeAux_eq s.len s rfl hv

theorem DescValid_new {data : List Nat} (hb : ∀ w ∈ data, w < 2 ^ 64) :
    DescValid (Descending.new data (totalPop data)) := by
  refine ⟨hb, by simp [Descending.new], by norm_num [Descending.new, Inner.Iter.new], ?_, ?_⟩
  · rfl
  · show totalPop data = Inner.popcount 0 + totalPop (data.take data.length)
    rw [popcount_zero, List.take_of_length_le (le_refl _)]
    omega

theorem descRest_new (data : List Nat) (len : Nat) :
    descRest (Descending.new data len) = (ascSpec data).reverse := by
  show ((lowBits 64 0).map _).reverse ++ (ascSpec (data.take data.length)).reverse = _
  rw [lowBits_zero, List.take_of_length_le (le_refl _)]
  simp

/-- from `borrowed.rs`: `descending()` constructs the backward cursor. -/
def Borrowed.descending (s : Borrowed) : Descending := Descending.new s.data s.len

/-- The standard library lexicographic iterator comparison (`Iterator::cmp`),
    as used by `Ord for Borrowed<'_>`: repeatedly draw one element from each
    side; two exhausted sides are equal, an exhausted side alone is smaller,
    and unequal heads decide.  The loop is modelled with fuel; every
    continuing round consumes one yielded element of each side, so any fuel
    above the left cardinality reaches a terminating case under the cursor
    validity invariant. -/
def cmpAux : Nat → Ascending → Ascending → Ordering
  | 0, _, _ => .eq
  | f + 1, x, y =>
    match Ascending.next x, Ascending.next y with
    | (none, _), (none, _) => .eq
    | (none, _), (some _, _) => .lt
    | (some _, _), (none, _) => .gt
    | (some a, x'), (some b, y') =>
      if a = b then cmpAux f x' y' else compare a b

/-- from `borrowed.rs`: `Ord::cmp` compares the ascending sequences. -/
def Borrowed.cmp (a b : Borrowed) : Ordering :=
  cmpAux (a.len + 1) a.ascending b.ascending

/-- Spec-side lexicographic comparison of lists (shorter prefix first). -/
def lexCompare : List Nat → List Nat → Ordering
  | [], [] => .eq
  | [], _ :: _ => .lt
  | _ :: _, [] => .gt
  | a :: xs, b :: ys => if a = b then lexCompare xs ys else compare a b

theorem toList_of_len_zero {s : Ascending} (h : s.len = 0) :
    Ascending.toList s = [] := by
  rw [Ascending.toList, h]
  rfl

theorem toList_step {s : Ascending} {v : Nat} {s' : Ascending} (hv : AscValid s)
    (hv' : AscValid s') (hnext : Ascending.next s = (some v, s'))
    (hrest : ascRest s = v :: ascRest s') :
    Ascending.toList s = v :: Ascending.toList s' := by
  rw [asc_toList_eq hv, hrest, asc_toList_eq hv']

theorem cmpAux_eq_lex : ∀ (f : Nat) (x y : Ascending), AscValid x → AscValid y →
    x.len < f → cmpAux f x y = lexCompare (Ascending.toList x) (Ascending.toList y) := by
  intro f
  induction f with
  | zero => intro x y _ _ h; omega
  | succ f ih =>
    intro x y hvx hvy hf
    by_cases hx : x.len = 0
    · have hnx := Ascending_next_of_len_zero hx
      have htx := toList_of_len_zero hx
      by_cases hy : y.len = 0
      · have hny := Ascending_next_of_len_zero hy
        have hty := toList_of_len_zero hy
        rw [htx, hty]
        simp [cmpAux, hnx, hny, lexCompare]
      · rcases asc_step hvy (by omega) with ⟨v, y', hny, hvy', _, hry⟩
        have hty := toList_step hvy hvy' hny hry
        rw [htx, hty]
        simp [cmpAux, hnx, hny, lexCompare]
    · rcases asc_step hvx (by omega) with ⟨vx, x', hnx, hvx', hlx, hrx⟩
      have htx := toList_step hvx hvx' hnx hrx
      by_cases hy : y.len = 0
      · have hny := Ascending_next_of_len_zero hy
        have hty := toList_of_len_zero hy
        rw [htx, hty]
        simp [cmpAux, hnx, hny, lexCompare]
      · rcases asc_step hvy (by omega) with ⟨vy, y', hny, hvy', hly, hry⟩
        have hty := toList_step hvy hvy' hny hry
        rw [htx, hty]
        simp only [cmpAux, hnx, hny, lexCompare]
        by_cases hvv : vx = vy
        · simp only [hvv, if_pos rfl]
          exact ih x' y' hvx' hvy' (by omega)
        · simp [hvv]

/-- from `owned.rs`: the owned set `Owned { data, len }`.  The boxed word
    slice is the word list; boxed slices always have capacity equal to their
    length, and `with_buffer` rebuilds a boxed slice, so no separate capacity
    field is needed. -/
structure Owned where
  data : List Nat
  len : Nat
deriving DecidableEq

/-- from `owned.rs`: `Owned::new()`, an empty zero-capacity set (the dangling
    non-null pointer of the source is just the empty buffer). -/
def Owned.new : Owned := ⟨[], 0⟩

/-- from `owned.rs`: `Owned::with_maximum(maximum)` allocates `maximum`
    zeroed words (the parameter is a word count in the source). -/
def Owned.with_maximum (maximum : Nat) : Owned := ⟨List.replicate maximum 0, 0⟩

/-- from `owned.rs`: `as_slice()`. -/
def Owned.as_slice (s : Owned) : Borrowed := ⟨s.data, s.len⟩

/-- from `owned.rs`: `maximum()` delegates to the borrowed view. -/
def Owned.maximum (s : Owned) : Nat := s.as_slice.maximum

/-- from `owned.rs`: `contains(value)` delegates to the borrowed view. -/
def Owned.contains (s : Owned) (value : Nat) : Bool := s.as_slice.contains value

/-- from `owned.rs`: `ascending()` delegates to the borrowed view. -/
def Owned.ascending (s : Owned) : Ascending := s.as_slice.ascending

/-- from `owned.rs`: `descending()` delegates to the borrowed view. -/
def Owned.descending (s : Owned) : Descending := s.as_slice.descending

/-- from `owned.rs`: `insert(value)`: guarded chunk lookup, test the bit, set
    it and bump `len` when it was clear; `none` when the chunk is out of
    range. -/
def Owned.insert (s : Owned) (value : Nat) : Option Bool × Owned :=
  let offset := Inner.bits_to_chunk value
  if offset < s.data.length then
    let inner := s.data.getD offset 0
    if Inner.get inner value then
      (some true, s)
    else
      (some false, ⟨s.data.set offset (inner ||| Inner.mask value), s.len + 1⟩)
  else
    (none, s)

/-- from `owned.rs`: `insert_chunk(offset)`: count the chunk's zero bits
    (`count_zeros() = 64 - count_ones()` on a 64-bit word), add them to
    `len`, and replace the chunk by `Inner::MAX = 2 ^ 64 - 1`; returns the
    replaced word. -/
def Owned.insert_chunk (s : Owned) (offset : Nat) : Option Nat × Owned :=
  if offset < s.data.length then
    let inner := s.data.getD offset 0
    (some inner, ⟨s.data.set offset (2 ^ 64 - 1), s.len + (64 - Inner.popcount inner)⟩)
  else
    (none, s)

/-- from `owned.rs`: `remove(value)`: clear the bit with `inner &= !mask`
    (`!mask` on a 64-bit word is `(2 ^ 64 - 1) ^^^ mask`) and decrement
    `len` when it was set. -/
def Owned.remove (s : Owned) (value : Nat) : Option Bool × Owned :=
  let offset := Inner.bits_to_chunk value
  if offset < s.data.length then
    let inner := s.data.getD offset 0
    if Inner.get inner value then
      (some true, ⟨s.data.set offset (inner &&& ((2 ^ 64 - 1) ^^^ Inner.mask value)), s.len - 1⟩)
    else
      (some false, s)
  else
    (none, s)

/-- from `owned.rs`: `remove_chunk(offset)`: subtract the chunk's ones from
    `len` and replace the chunk by `Inner::MIN = 0`; returns the replaced
    word. -/
def Owned.remove_chunk (s : Owned) (offset : Nat) : Option Nat × Owned :=
  if offset < s.data.length then
    let inner := s.data.getD offset 0
    (some inner, ⟨s.data.set offset 0, s.len - Inner.popcount inner⟩)
  else
    (none, s)

/-- The `for value in a.. { self.insert(value)?; }` loops of `insert_all`,
    with the loop length as fuel: insert consecutive values starting at
    `value`, stopping with `none` at the first failure (the state reached so
    far is kept, matching the `?` early return on `&mut self`). -/
def Owned.insertRangeGo : Nat → Owned → Nat → Option Unit × Owned
  | 0, s, _ => (some (), s)
  | n + 1, s, value =>
    match s.insert value with
    | (none, s') => (none, s')
    | (some _, s') => Owned.insertRangeGo n s' (value + 1)

/-- The `for offset in start_chunk + 1..end_chunk { self.insert_chunk(offset)?; }`
    loop of `insert_all`. -/
def Owned.insertChunksGo : Nat → Owned → Nat → Option Unit × Owned
  | 0, s, _ => (some (), s)
  | n + 1, s, offset =>
    match s.insert_chunk offset with
    | (none, s') => (none, s')
    | (some _, s') => Owned.insertChunksGo n s' (offset + 1)

/-- The `?` early return of the source on `&mut self` methods: on `none` the
    method returns `none`, keeping whatever partial state was already
    reached; otherwise the rest of the method body runs. -/
def qmark (r : Option Unit × Owned) (f : Owned → Option Unit × Owned) : Option Unit × Owned :=
  match r with
  | (none, s) => (none, s)
  | (some _, s) => f s

/-- from `owned.rs`: `insert_all(start, end)`: bit loop over the leading
    partial word, bit loop over the trailing partial word, then whole-word
    loop over the interior chunks (the parameter `end` of the source is named
    `stop`; `end` is a Lean keyword). -/
def Owned.insert_all (s : Owned) (start stop : Nat) : Option Unit × Owned :=
  let start_chunk := Inner.bits_to_chunk start
  let naive_end := min (Inner.chunk_to_bits (start_chunk + 1)) stop
  qmark (Owned.insertRangeGo (naive_end - start) s start) fun s₁ =>
    let end_chunk := Inner.bits_to_chunk stop
    let naive_start := max (Inner.chunk_to_bits end_chunk) start
    qmark (Owned.insertRangeGo (stop - naive_start) s₁ naive_start) fun s₂ =>
      Owned.insertChunksGo (end_chunk - (start_chunk + 1)) s₂ (start_chunk + 1)

/-- The remove counterpart of `insertRangeGo`. -/
def Owned.removeRangeGo : Nat → Owned → Nat → Option Unit × Owned
  | 0, s, _ => (some (), s)
  | n + 1, s, value =>
    match s.remove value with
    | (none, s') => (none, s')
    | (some _, s') => Owned.removeRangeGo n s' (value + 1)

/-- The remove counterpart of `insertChunksGo`. -/
def Owned.removeChunksGo : Nat → Owned → Nat → Option Unit × Owned
  | 0, s, _ => (some (), s)
  | n + 1, s, offset =>
    match s.remove_chunk offset with
    | (none, s') => (none, s')
    | (some _, s') => Owned.removeChunksGo n s' (offset + 1)

/-- from `owned.rs`: `remove_all(start, end)`, mirroring `insert_all`. -/
def Owned.remove_all (s : Owned) (start stop : Nat) : Option Unit × Owned :=
  let start_chunk := Inner.bits_to_chunk start
  let naive_end := min (Inner.chunk_to_bits (start_chunk + 1)) stop
  qmark (Owned.removeRangeGo (naive_end - start) s start) fun s₁ =>
    let end_chunk := Inner.bits_to_chunk stop
    let naive_start := max (Inner.chunk_to_bits end_chunk) start
    qmark (Owned.removeRangeGo (stop - naive_start) s₁ naive_start) fun s₂ =>
      Owned.removeChunksGo (end_chunk - (start_chunk + 1)) s₂ (start_chunk + 1)

/-- from `owned.rs`: `grow_maximum(maximum)`: when the chunk of `maximum`
    does not fit, reserve the shortfall and fill the new capacity with zeros.
    `Vec::reserve` is amortized and may allocate more than requested; this
    model allocates exactly the request, so it gives the shortest buffer the
    source can produce.  Only conclusions that survive extra zero words —
    capacity lower bounds, and invariants indifferent to trailing zeros —
    transfer to the program; buffer-length upper bounds would not. -/
def Owned.grow_maximum (s : Owned) (maximum : Nat) : Owned :=
  let offset := Inner.bits_to_chunk maximum
  if s.data.length ≤ offset then
    ⟨s.data ++ List.replicate (offset + 1 - s.data.length) 0, s.len⟩
  else
    s

/-- from `owned.rs`: `grow_insert(value)`: grow to cover `value`, then
    insert; the source unwraps the `Option` with `unwrap_unchecked`
    (undefined behavior on `none`, modelled as `false`; the absence branch is
    proved unreachable). -/
def Owned.grow_insert (s : Owned) (value : Nat) : Bool × Owned :=
  let s₁ := s.grow_maximum (value + 1)
  match s₁.insert value with
  | (some previous, s₂) => (previous, s₂)
  | (none, s₂) => (false, s₂)

/-- from `owned.rs`: `grow_insert_all(start, end)`: grow to cover the range,
    then `insert_all` (unchecked-unwrapped in the source). -/
def Owned.grow_insert_all (s : Owned) (start stop : Nat) : Owned :=
  ((s.grow_maximum stop).insert_all start stop).2

/-- The `while removed < self.len` loop of `clear`, phrased over the still
    unvisited words with `need = self.len - removed` (the loop stops when
    `removed` reaches `len`; walking past the end of the buffer, which the
    source's `get_unchecked_mut` would turn into an out-of-bounds write,
    cannot happen under the cardinality invariant and is modelled as
    stopping). -/
def clearGo : List Nat → Nat → List Nat
  | ws, 0 => ws
  | [], _ + 1 => []
  | w :: rest, need + 1 => 0 :: clearGo rest (need + 1 - Inner.popcount w)

/-- from `owned.rs`: `clear()`: zero words until `len` ones have been
    removed, then reset `len`. -/
def Owned.clear (s : Owned) : Owned := ⟨clearGo s.data s.len, 0⟩

/-- from `owned.rs`: the `rposition(|v| v != 0).map_or(0, |i| i + 1)` scan of
    `shrink_to_fit`. -/
def rpositionNonZero : List Nat → Option Nat
  | [] => none
  | w :: rest =>
    match rpositionNonZero rest with
    | some index => some (index + 1)
    | none => if w ≠ 0 then some 0 else none

/-- from `owned.rs`: `shrink_to_fit()`: truncate the buffer after the last
    nonzero word. -/
def Owned.shrink_to_fit (s : Owned) : Owned :=
  let maximum :=
    match rpositionNonZero s.data with
    | some index => index + 1
    | none => 0
  ⟨s.data.take maximum, s.len⟩

/-- from `owned.rs`: `clone_from_slice(source)`: clear the buffer, copy the
    source words, then `resize(capacity, 0)`; with the boxed-slice capacity
    equal to the old length, the result is the source words padded with
    zeros up to the old length, and `len` is adopted from the source. -/
def Owned.clone_from_slice (s : Owned) (source : Borrowed) : Owned :=
  ⟨source.data ++ List.replicate (s.data.length - source.data.length) 0, source.len⟩

/-- from `owned.rs`: `Extend for Owned`: `grow_insert` every value. -/
def Owned.extend (s : Owned) (values : List Nat) : Owned :=
  values.foldl (fun acc value => (acc.grow_insert value).2) s

/-- from `owned.rs`: `FromIterator for Owned`: extend a fresh set. -/
def Owned.from_iterator (values : List Nat) : Owned :=
  Owned.extend Owned.new values

/-! Counting lemmas for single-bit updates. -/

theorem countP_or_eq {k : Nat} {p : Nat → Bool} : ∀ {l : List Nat}, k ∈ l → l.Nodup →
    p k = false → l.countP (fun b => p b || decide (b = k)) = l.countP p + 1 := by
  intro l
  induction l with
  | nil => intro hk; simp at hk
  | cons a t ih =>
    intro hk hnd hp
    rcases List.nodup_cons.1 hnd with ⟨hat, hndt⟩
    rcases List.mem_cons.1 hk with rfl | hkt
    · rw [List.countP_cons_of_pos _ _ (by simp), List.countP_cons_of_neg _ _ (by simp [hp])]
      have : t.countP (fun b => p b || decide (b = k)) = t.countP p := by
        apply List.countP_congr
        intro x hx
        have : x ≠ k := fun h => hat (h ▸ hx)
        simp [this]
      rw [this]
    · have hak : a ≠ k := fun h => hat (h ▸ hkt)
      rw [List.countP_cons, List.countP_cons, ih hkt hndt hp]
      have : (p a || decide (a = k)) = p a := by simp [hak]
      rw [this]
      ring

theorem countP_and_ne {k : Nat} {p : Nat → Bool} : ∀ {l : List Nat}, k ∈ l → l.Nodup →
    p k = true → l.countP (fun b => p b && !decide (b = k)) + 1 = l.countP p := by
  intro l
  induction l with
  | nil => intro hk; simp at hk
  | cons a t ih =>
    intro hk hnd hp
    rcases List.nodup_cons.1 hnd with ⟨hat, hndt⟩
    rcases List.mem_cons.1 hk with rfl | hkt
    · rw [List.countP_cons_of_neg _ _ (by simp), List.countP_cons_of_pos _ _ (by simp [hp])]
      have : t.countP (fun b => p b && !decide (b = k)) = t.countP p := by
        apply List.countP_congr
        intro x hx
        have : x ≠ k := fun h => hat (h ▸ hx)
        simp [this]
      rw [this]
    · have hak : a ≠ k := fun h => hat (h ▸ hkt)
      rw [List.countP_cons, List.countP_cons, ← ih hkt hndt hp]
      have : (p a && !decide (a = k)) = p a := by simp [hak]
      rw [this]
      ring

theorem popcount_or_two_pow {w k : Nat} (hk : k < 64) (h : w.testBit k = false) :
    Inner.popcount (w ||| 2 ^ k) = Inner.popcount w + 1 := by
  rw [popcount_eq_countP, popcount_eq_countP]
  have hcong : (List.range 64).countP (fun b => (w ||| 2 ^ k).testBit b)
      = (List.range 64).countP (fun b => w.testBit b || decide (b = k)) := by
    apply List.countP_congr
    intro x _
    rw [Nat.testBit_or, Nat.testBit_two_pow]
    have h2 : (decide (k = x) : Bool) = decide (x = k) := by
      by_cases hkx : k = x
      · simp [hkx]
      · simp [hkx, Ne.symm hkx]
    rw [h2]
  rw [hcong]
  exact countP_or_eq (List.mem_range.2 hk) (List.nodup_range 64) h

theorem popcount_and_not_two_pow {w k : Nat} (hk : k < 64) (h : w.testBit k = true) :
    Inner.popcount (w &&& ((2 ^ 64 - 1) ^^^ 2 ^ k)) + 1 = Inner.popcount w := by
  rw [popcount_eq_countP, popcount_eq_countP]
  have hcong : (List.range 64).countP (fun b => (w &&& ((2 ^ 64 - 1) ^^^ 2 ^ k)).testBit b)
      = (List.range 64).countP (fun b => w.testBit b && !decide (b = k)) := by
    apply List.countP_congr
    intro x hx
    have hx64 : x < 64 := List.mem_range.1 hx
    rw [Nat.testBit_and, Nat.testBit_xor, Nat.testBit_two_pow,
      Nat.testBit_two_pow_sub_one]
    have h1 : (decide (x < 64) : Bool) = true := by simp [hx64]
    have h2 : (decide (k = x) : Bool) = decide (x = k) := by
      by_cases hkx : k = x
      · simp [hkx]
      · simp [hkx, Ne.symm hkx]
    rw [h1, h2, Bool.true_xor]
  rw [hcong]
  exact countP_and_ne (List.mem_range.2 hk) (List.nodup_range 64) h

theorem totalPop_set : ∀ (data : List Nat) (i : Nat), i < data.length → ∀ w : Nat,
    totalPop (data.set i w) + Inner.popcount (data.getD i 0)
      = totalPop data + Inner.popcount w := by
  intro data
  induction data with
  | nil => intro i hi; simp at hi
  | cons a t ih =>
    intro i hi w
    cases i with
    | zero =>
      simp only [List.set_cons_zero, totalPop, List.getD_cons_zero]
      ring
    | succ i =>
      simp only [List.set_cons_succ, totalPop, List.getD_cons_succ]
      have := ih i (by simpa using hi) w
      omega

theorem getD_set_self : ∀ (l : List Nat) (i : Nat), i < l.length → ∀ w : Nat,
    (l.set i w).getD i 0 = w := by
  intro l
  induction l with
  | nil => intro i hi; simp at hi
  | cons a t ih =>
    intro i hi w
    cases i with
    | zero => simp
    | succ i =>
      simp only [List.set_cons_succ, List.getD_cons_succ]
      exact ih i (by simpa using hi) w

theorem getD_set_ne : ∀ (l : List Nat) (i j : Nat), i ≠ j → ∀ w : Nat,
    (l.set i w).getD j 0 = l.getD j 0 := by
  intro l
  induction l with
  | nil => intro i j hij w; simp
  | cons a t ih =>
    intro i j hij w
    cases i with
    | zero =>
      cases j with
      | zero => omega
      | succ j => simp
    | succ i =>
      cases j with
      | zero => simp
      | succ j =>
        simp only [List.set_cons_succ, List.getD_cons_succ]
        exact ih i j (by omega) w

theorem getD_mem_of_lt {l : List Nat} {i : Nat} (hi : i < l.length) :
    l.getD i 0 ∈ l := by
  rw [List.getD_eq_getElem?_getD, List.getElem?_eq_getElem hi]
  exact List.getElem_mem hi

/-- The cardinality invariant of the containers: `len` is the total number of
    set bits, and every word fits in 64 bits. -/
def Owned.Inv (s : Owned) : Prop :=
  s.len = totalPop s.data ∧ ∀ w ∈ s.data, w < 2 ^ 64

theorem two_pow_lt_64 {k : Nat} (hk : k < 64) : 2 ^ k < 2 ^ 64 :=
  Nat.pow_lt_pow_right (by omega) hk

theorem bounded_set {data : List Nat} {i w : Nat} (hb : ∀ u ∈ data, u < 2 ^ 64)
    (hw : w < 2 ^ 64) : ∀ u ∈ data.set i w, u < 2 ^ 64 := by
  intro u hu
  rcases List.mem_or_eq_of_mem_set hu with hu | rfl
  · exact hb u hu
  · exact hw

theorem Owned_insert_length (s : Owned) (v : Nat) :
    ((s.insert v).2).data.length = s.data.length := by
  rw [Owned.insert]
  split
  · dsimp only
    split <;> simp
  · rfl

theorem Inv_insert {s : Owned} (h : s.Inv) (v : Nat) : ((s.insert v).2).Inv := by
  obtain ⟨hlen, hb⟩ := h
  rw [Owned.insert]
  split
  · rename_i hoff
    dsimp only
    split
    · exact ⟨hlen, hb⟩
    · rename_i hget
      rw [get_eq_testBit] at hget
      constructor
      · show s.len + 1 = totalPop (s.data.set _ _)
        rw [mask_eq]
        have hset := totalPop_set s.data (Inner.bits_to_chunk v) hoff
          (s.data.getD (Inner.bits_to_chunk v) 0 ||| 2 ^ (v % 64))
        rw [popcount_or_two_pow (Nat.mod_lt _ (by omega))
          (by simpa using hget)] at hset
        omega
      · apply bounded_set hb
        rw [mask_eq]
        exact Nat.or_lt_two_pow (hb _ (getD_mem_of_lt hoff))
          (two_pow_lt_64 (Nat.mod_lt _ (by omega)))
  · exact ⟨hlen, hb⟩

theorem Owned_remove_length (s : Owned) (v : Nat) :
    ((s.remove v).2).data.length = s.data.length := by
  rw [Owned.remove]
  split
  · dsimp only
    split <;> simp
  · rfl

theorem popcount_getD_le_totalPop : ∀ (data : List Nat) (i : Nat), i < data.length →
    Inner.popcount (data.getD i 0) ≤ totalPop data := by
  intro data
  induction data with
  | nil => intro i hi; simp at hi
  | cons a t ih =>
    intro i hi
    cases i with
    | zero =>
      show Inner.popcount a ≤ Inner.popcount a + totalPop t
      omega
    | succ i =>
      have := ih i (by simp at hi; omega)
      show Inner.popcount (t.getD i 0) ≤ Inner.popcount a + totalPop t
      omega

theorem Inv_remove {s : Owned} (h : s.Inv) (v : Nat) : ((s.remove v).2).Inv := by
  obtain ⟨hlen, hb⟩ := h
  rw [Owned.remove]
  split
  · rename_i hoff
    dsimp only
    split
    · rename_i hget
      rw [get_eq_testBit] at hget
      have hdrop := popcount_and_not_two_pow (w := s.data.getD (Inner.bits_to_chunk v) 0)
        (Nat.mod_lt _ (by omega : (0:Nat) < 64)) hget
      constructor
      · show s.len - 1 = totalPop (s.data.set _ _)
        rw [mask_eq]
        have hset := totalPop_set s.data (Inner.bits_to_chunk v) hoff
          (s.data.getD (Inner.bits_to_chunk v) 0 &&& ((2 ^ 64 - 1) ^^^ 2 ^ (v % 64)))
        have hle := popcount_getD_le_totalPop s.data (Inner.bits_to_chunk v) hoff
        omega
      · apply bounded_set hb
        exact lt_of_le_of_lt Nat.and_le_left (hb _ (getD_mem_of_lt hoff))
    · exact ⟨hlen, hb⟩
  · exact ⟨hlen, hb⟩

theorem popcount_all_ones : Inner.popcount (2 ^ 64 - 1) = 64 := by decide

theorem Owned_insert_chunk_length (s : Owned) (o : Nat) :
    ((s.insert_chunk o).2).data.length = s.data.length := by
  rw [Owned.insert_chunk]
  split <;> simp

theorem Inv_insert_chunk {s : Owned} (h : s.Inv) (o : Nat) : ((s.insert_chunk o).2).Inv := by
  obtain ⟨hlen, hb⟩ := h
  rw [Owned.insert_chunk]
  split
  · rename_i hoff
    constructor
    · show s.len + (64 - Inner.popcount (s.data.getD o 0)) = totalPop (s.data.set o (2 ^ 64 - 1))
      have hset := totalPop_set s.data o hoff (2 ^ 64 - 1)
      have hle := popcount_le (s.data.getD o 0)
      have hle2 := popcount_getD_le_totalPop s.data o hoff
      rw [popcount_all_ones] at hset
      omega
    · exact bounded_set hb (by omega)
  · exact ⟨hlen, hb⟩

theorem Owned_remove_chunk_length (s : Owned) (o : Nat) :
    ((s.remove_chunk o).2).data.length = s.data.length := by
  rw [Owned.remove_chunk]
  split <;> simp

theorem Inv_remove_chunk {s : Owned} (h : s.Inv) (o : Nat) : ((s.remove_chunk o).2).Inv := by
  obtain ⟨hlen, hb⟩ := h
  rw [Owned.remove_chunk]
  split
  · rename_i hoff
    constructor
    · show s.len - Inner.popcount (s.data.getD o 0) = totalPop (s.data.set o 0)
      have hset := totalPop_set s.data o hoff 0
      have hle2 := popcount_getD_le_totalPop s.data o hoff
      rw [popcount_zero] at hset
      omega
    · exact bounded_set hb (by omega)
  · exact ⟨hlen, hb⟩

theorem Inv_insertRangeGo : ∀ (n : Nat) (s : Owned) (v : Nat), s.Inv →
    ((Owned.insertRangeGo n s v).2).Inv := by
  intro n
  induction n with
  | zero => intro s v h; exact h
  | succ n ih =>
    intro s v h
    rw [Owned.insertRangeGo]
    rcases hi : s.insert v with ⟨o, s'⟩
    have hs' : s'.Inv := by
      have := Inv_insert h v
      rw [hi] at this
      exact this
    cases o
    · exact hs'
    · exact ih s' (v + 1) hs'

theorem Inv_insertChunksGo : ∀ (n : Nat) (s : Owned) (o : Nat), s.Inv →
    ((Owned.insertChunksGo n s o).2).Inv := by
  intro n
  induction n with
  | zero => intro s o h; exact h
  | succ n ih =>
    intro s o h
    rw [Owned.insertChunksGo]
    rcases hi : s.insert_chunk o with ⟨r, s'⟩
    have hs' : s'.Inv := by
      have := Inv_insert_chunk h o
      rw [hi] at this
      exact this
    cases r
    · exact hs'
    · exact ih s' (o + 1) hs'

theorem Inv_removeRangeGo : ∀ (n : Nat) (s : Owned) (v : Nat), s.Inv →
    ((Owned.removeRangeGo n s v).2).Inv := by
  intro n
  induction n with
  | zero => intro s v h; exact h
  | succ n ih =>
    intro s v h
    rw [Owned.removeRangeGo]
    rcases hi : s.remove v with ⟨o, s'⟩
    have hs' : s'.Inv := by
      have := Inv_remove h v
      rw [hi] at this
      exact this
    cases o
    · exact hs'
    · exact ih s' (v + 1) hs'

theorem Inv_removeChunksGo : ∀ (n : Nat) (s : Owned) (o : Nat), s.Inv →
    ((Owned.removeChunksGo n s o).2).Inv := by
  intro n
  induction n with
  | zero => intro s o h; exact h
  | succ n ih =>
    intro s o h
    rw [Owned.removeChunksGo]
    rcases hi : s.remove_chunk o with ⟨r, s'⟩
    have hs' : s'.Inv := by
      have := Inv_remove_chunk h o
      rw [hi] at this
      exact this
    cases r
    · exact hs'
    · exact ih s' (o + 1) hs'

theorem qmark_2_Inv {r : Option Unit × Owned} {f : Owned → Option Unit × Owned}
    (hr : r.2.Inv) (hf : ∀ t : Owned, t.Inv → ((f t).2).Inv) : ((qmark r f).2).Inv := by
  rcases r with ⟨o, s⟩
  cases o
  · exact hr
  · exact hf s hr

theorem Inv_insert_all {s : Owned} (h : s.Inv) (a b : Nat) :
    ((s.insert_all a b).2).Inv := by
  rw [Owned.insert_all]
  dsimp only
  apply qmark_2_Inv (Inv_insertRangeGo _ s a h)
  intro t ht
  apply qmark_2_Inv (Inv_insertRangeGo _ t _ ht)
  intro u hu
  exact Inv_insertChunksGo _ u _ hu

theorem Inv_remove_all {s : Owned} (h : s.Inv) (a b : Nat) :
    ((s.remove_all a b).2).Inv := by
  rw [Owned.remove_all]
  dsimp only
  apply qmark_2_Inv (Inv_removeRangeGo _ s a h)
  intro t ht
  apply qmark_2_Inv (Inv_removeRangeGo _ t _ ht)
  intro u hu
  exact Inv_removeChunksGo _ u _ hu

theorem totalPop_replicate_zero : ∀ n : Nat, totalPop (List.replicate n 0) = 0 := by
  intro n
  induction n with
  | zero => rfl
  | succ n ih => simp [List.replicate, totalPop, popcount_zero, ih]

theorem Inv_grow_maximum {s : Owned} (h : s.Inv) (m : Nat) :
    ((s.grow_maximum m)).Inv := by
  obtain ⟨hlen, hb⟩ := h
  rw [Owned.grow_maximum]
  split
  · constructor
    · show s.len = totalPop (s.data ++ List.replicate _ 0)
      rw [totalPop_append, totalPop_replicate_zero]
      omega
    · intro w hw
      rcases List.mem_append.1 hw with hw | hw
      · exact hb w hw
      · rw [List.eq_of_mem_replicate hw]
        omega
  · exact ⟨hlen, hb⟩

theorem Inv_grow_insert {s : Owned} (h : s.Inv) (v : Nat) :
    ((s.grow_insert v).2).Inv := by
  rw [Owned.grow_insert]
  have h₁ := Inv_grow_maximum h (v + 1)
  rcases hi : (s.grow_maximum (v + 1)).insert v with ⟨o, s₂⟩
  have hs₂ : s₂.Inv := by
    have := Inv_insert h₁ v
    rw [hi] at this
    exact this
  cases o <;> exact hs₂

theorem Inv_grow_insert_all {s : Owned} (h : s.Inv) (a b : Nat) :
    (s.grow_insert_all a b).Inv :=
  Inv_insert_all (Inv_grow_maximum h b) a b

theorem clearGo_totalPop : ∀ (ws : List Nat) (need : Nat), totalPop ws ≤ need →
    totalPop (clearGo ws need) = 0 := by
  intro ws
  induction ws with
  | nil =>
    intro need _
    cases need <;> rfl
  | cons w rest ih =>
    intro need hle
    cases need with
    | zero =>
      show totalPop (w :: rest) = 0
      simp only [totalPop] at hle ⊢
      omega
    | succ need =>
      show totalPop (0 :: clearGo rest (need + 1 - Inner.popcount w)) = 0
      simp only [totalPop] at hle ⊢
      rw [popcount_zero, ih _ (by omega)]

theorem clearGo_bounded : ∀ (ws : List Nat) (need : Nat), (∀ w ∈ ws, w < 2 ^ 64) →
    ∀ w ∈ clearGo ws need, w < 2 ^ 64 := by
  intro ws
  induction ws with
  | nil =>
    intro need hb w hw
    cases need <;> simp [clearGo] at hw
  | cons a rest ih =>
    intro need hb w hw
    cases need with
    | zero => exact hb w hw
    | succ need =>
      rcases List.mem_cons.1 hw with rfl | hw
      · omega
      · exact ih _ (fun u hu => hb u (List.mem_cons_of_mem _ hu)) w hw

theorem Inv_clear {s : Owned} (h : s.Inv) : (s.clear).Inv := by
  obtain ⟨hlen, hb⟩ := h
  constructor
  · show 0 = totalPop (clearGo s.data s.len)
    rw [clearGo_totalPop s.data s.len (by omega)]
  · exact clearGo_bounded s.data s.len hb

theorem rpositionNonZero_none_totalPop : ∀ l : List Nat, rpositionNonZero l = none →
    totalPop l = 0 := by
  intro l
  induction l with
  | nil => intro _; rfl
  | cons w rest ih =>
    intro h
    rw [rpositionNonZero] at h
    rcases hr : rpositionNonZero rest with _ | i
    · rw [hr] at h
      by_cases hw : w = 0
      · subst hw
        show Inner.popcount 0 + totalPop rest = 0
        rw [popcount_zero, ih hr]
      · rw [if_pos hw] at h
        simp at h
    · rw [hr] at h
      simp at h

theorem shrink_take_totalPop : ∀ l : List Nat,
    totalPop (l.take (match rpositionNonZero l with
      | some index => index + 1
      | none => 0)) = totalPop l := by
  intro l
  induction l with
  | nil => rfl
  | cons w rest ih =>
    rw [rpositionNonZero]
    rcases hr : rpositionNonZero rest with _ | i
    · rw [hr] at ih
      by_cases hw : w = 0
      · subst hw
        rw [if_neg (by simp)]
        show totalPop [] = Inner.popcount 0 + totalPop rest
        rw [popcount_zero, rpositionNonZero_none_totalPop rest hr]
        rfl
      · rw [if_pos hw]
        show totalPop (w :: rest.take 0) = Inner.popcount w + totalPop rest
        show Inner.popcount w + totalPop [] = Inner.popcount w + totalPop rest
        rw [rpositionNonZero_none_totalPop rest hr]
        rfl
    · rw [hr] at ih
      show totalPop (w :: rest.take (i + 1)) = Inner.popcount w + totalPop rest
      show Inner.popcount w + totalPop (rest.take (i + 1)) = Inner.popcount w + totalPop rest
      rw [ih]

theorem Inv_shrink_to_fit {s : Owned} (h : s.Inv) : (s.shrink_to_fit).Inv := by
  obtain ⟨hlen, hb⟩ := h
  constructor
  · show s.len = totalPop (s.data.take _)
    rw [shrink_take_totalPop s.data]
    omega
  · intro w hw
    exact hb w (List.mem_of_mem_take hw)

theorem Inv_clone_from_slice {s : Owned} {ws : List Nat} {n : Nat}
    (hn : n = totalPop ws) (hbw : ∀ w ∈ ws, w < 2 ^ 64) :
    (s.clone_from_slice ⟨ws, n⟩).Inv := by
  constructor
  · show n = totalPop (ws ++ List.replicate _ 0)
    rw [totalPop_append, totalPop_replicate_zero]
    omega
  · intro w hw
    rcases List.mem_append.1 hw with hw | hw
    · exact hbw w hw
    · rw [List.eq_of_mem_replicate hw]
      omega

/-- The public mutating operations of the container, with their arguments
    (the `clone_from_slice` argument carries the words and tracked length of
    the source view). -/
inductive Op where
  | insertOp (value : Nat)
  | removeOp (value : Nat)
  | insertAllOp (start stop : Nat)
  | removeAllOp (start stop : Nat)
  | growInsertOp (value : Nat)
  | growInsertAllOp (start stop : Nat)
  | growMaximumOp (maximum : Nat)
  | clearOp
  | shrinkToFitOp
  | cloneFromSliceOp (ws : List Nat) (n : Nat)

/-- Apply one operation (results of fallible operations are discarded; only
    the resulting state matters for the invariant). -/
def Op.apply (s : Owned) : Op → Owned
  | .insertOp v => (s.insert v).2
  | .removeOp v => (s.remove v).2
  | .insertAllOp a b => (s.insert_all a b).2
  | .removeAllOp a b => (s.remove_all a b).2
  | .growInsertOp v => (s.grow_insert v).2
  | .growInsertAllOp a b => s.grow_insert_all a b
  | .growMaximumOp m => s.grow_maximum m
  | .clearOp => s.clear
  | .shrinkToFitOp => s.shrink_to_fit
  | .cloneFromSliceOp ws n => s.clone_from_slice ⟨ws, n⟩

/-- The safety contract of the operation arguments: a `clone_from_slice`
    source must be a well-formed view (its tracked length counts its set
    bits and its words are 64-bit), which `Borrowed::new` demands from its
    caller; all other operations are unconditional. -/
def Op.ArgOk : Op → Prop
  | .cloneFromSliceOp ws n => n = totalPop ws ∧ ∀ w ∈ ws, w < 2 ^ 64
  | _ => True

def runOps (ops : List Op) (s : Owned) : Owned := ops.foldl Op.apply s

theorem Inv_apply {s : Owned} (h : s.Inv) {op : Op} (hok : op.ArgOk) :
    (Op.apply s op).Inv := by
  cases op with
  | insertOp v => exact Inv_insert h v
  | removeOp v => exact Inv_remove h v
  | insertAllOp a b => exact Inv_insert_all h a b
  | removeAllOp a b => exact Inv_remove_all h a b
  | growInsertOp v => exact Inv_grow_insert h v
  | growInsertAllOp a b => exact Inv_grow_insert_all h a b
  | growMaximumOp m => exact Inv_grow_maximum h m
  | clearOp => exact Inv_clear h
  | shrinkToFitOp => exact Inv_shrink_to_fit h
  | cloneFromSliceOp ws n => exact Inv_clone_from_slice hok.1 hok.2

theorem Inv_runOps : ∀ (ops : List Op) (s : Owned), s.Inv → (∀ op ∈ ops, Op.ArgOk op) →
    (runOps ops s).Inv := by
  intro ops
  induction ops with
  | nil => intro s h _; exact h
  | cons op rest ih =>
    intro s h hok
    show (runOps rest (Op.apply s op)).Inv
    exact ih _ (Inv_apply h (hok op (List.mem_cons_self _ _)))
      (fun o ho => hok o (List.mem_cons_of_mem _ ho))

theorem Inv_new : Owned.new.Inv := ⟨rfl, by intro w hw; simp [Owned.new] at hw⟩

theorem Inv_with_maximum (m : Nat) : (Owned.with_maximum m).Inv := by
  constructor
  · show 0 = totalPop (List.replicate m 0)
    rw [totalPop_replicate_zero]
  · intro w hw
    rw [List.eq_of_mem_replicate hw]
    omega

theorem totalPop_eq_countP_testBit : ∀ data : List Nat,
    totalPop data = (List.range (64 * data.length)).countP
      (fun i => (data.getD (i / 64) 0).testBit (i % 64)) := by
  intro data
  induction data with
  | nil => simp [totalPop]
  | cons w rest ih =>
    have hsplit : 64 * (w :: rest).length = 64 + 64 * rest.length := by
      simp [List.length_cons]
      ring
    rw [hsplit, List.range_add, List.countP_append, List.countP_map]
    have hfirst : (List.range 64).countP
        (fun i => ((w :: rest).getD (i / 64) 0).testBit (i % 64)) = Inner.popcount w := by
      rw [popcount_eq_countP]
      apply List.countP_congr
      intro x hx
      have hx64 : x < 64 := List.mem_range.1 hx
      have h1 : x / 64 = 0 := by omega
      have h2 : x % 64 = x := by omega
      rw [h1, h2]
      rfl
    have hsecond : (List.range (64 * rest.length)).countP
        ((fun i => ((w :: rest).getD (i / 64) 0).testBit (i % 64)) ∘ (64 + ·))
        = (List.range (64 * rest.length)).countP
          (fun i => (rest.getD (i / 64) 0).testBit (i % 64)) := by
      apply List.countP_congr
      intro x _
      have h1 : (64 + x) / 64 = x / 64 + 1 := by omega
      have h2 : (64 + x) % 64 = x % 64 := by omega
      show ((w :: rest).getD ((64 + x) / 64) 0).testBit ((64 + x) % 64) = true
        ↔ (rest.getD (x / 64) 0).testBit (x % 64) = true
      rw [h1, h2]
      rfl
    rw [hfirst, hsecond, ← ih]
    rfl

theorem testBit_set_bit (w k x : Nat) :
    (w ||| 2 ^ k).testBit x = (w.testBit x || decide (x = k)) := by
  rw [Nat.testBit_or, Nat.testBit_two_pow]
  have h2 : (decide (k = x) : Bool) = decide (x = k) := by
    by_cases hkx : k = x
    · simp [hkx]
    · simp [hkx, Ne.symm hkx]
  rw [h2]

theorem testBit_clear_bit {w k x : Nat} (hx : x < 64) :
    (w &&& ((2 ^ 64 - 1) ^^^ 2 ^ k)).testBit x = (w.testBit x && !decide (x = k)) := by
  rw [Nat.testBit_and, Nat.testBit_xor, Nat.testBit_two_pow, Nat.testBit_two_pow_sub_one]
  have h1 : (decide (x < 64) : Bool) = true := by simp [hx]
  have h2 : (decide (k = x) : Bool) = decide (x = k) := by
    by_cases hkx : k = x
    · simp [hkx]
    · simp [hkx, Ne.symm hkx]
  rw [h1, h2, Bool.true_xor]

theorem Owned_contains_eq (s : Owned) (i : Nat) :
    s.contains i = (s.data.getD (i / 64) 0).testBit (i % 64) :=
  Borrowed_contains_eq s.as_slice i

theorem insert_of_le {s : Owned} {v : Nat} (h : s.data.length ≤ Inner.bits_to_chunk v) :
    s.insert v = (none, s) := by
  rw [Owned.insert]
  rw [if_neg (by omega)]

theorem remove_of_le {s : Owned} {v : Nat} (h : s.data.length ≤ Inner.bits_to_chunk v) :
    s.remove v = (none, s) := by
  rw [Owned.remove]
  rw [if_neg (by omega)]

theorem insert_fst_isSome {s : Owned} {v : Nat} (h : Inner.bits_to_chunk v < s.data.length) :
    ((s.insert v).1).isSome = true := by
  rw [Owned.insert, if_pos h]
  dsimp only
  split <;> rfl

theorem remove_fst_isSome {s : Owned} {v : Nat} (h : Inner.bits_to_chunk v < s.data.length) :
    ((s.remove v).1).isSome = true := by
  rw [Owned.remove, if_pos h]
  dsimp only
  split <;> rfl

theorem insert_chunk_fst_isSome {s : Owned} {o : Nat} (h : o < s.data.length) :
    ((s.insert_chunk o).1).isSome = true := by
  rw [Owned.insert_chunk, if_pos h]
  rfl

theorem remove_chunk_fst_isSome {s : Owned} {o : Nat} (h : o < s.data.length) :
    ((s.remove_chunk o).1).isSome = true := by
  rw [Owned.remove_chunk, if_pos h]
  rfl

theorem grow_maximum_length (s : Owned) (m : Nat) :
    (s.grow_maximum m).data.length = max s.data.length (Inner.bits_to_chunk m + 1) := by
  rw [Owned.grow_maximum]
  split
  · rename_i hle
    show (s.data ++ List.replicate _ 0).length = _
    rw [List.length_append, List.length_replicate]
    omega
  · rename_i hlt
    omega

theorem insertRangeGo_some : ∀ (n : Nat) (s : Owned) (a : Nat),
    (∀ v, a ≤ v → v < a + n → Inner.bits_to_chunk v < s.data.length) →
    (Owned.insertRangeGo n s a).1 = some () ∧
    ((Owned.insertRangeGo n s a).2).data.length = s.data.length := by
  intro n
  induction n with
  | zero => intro s a _; exact ⟨rfl, rfl⟩
  | succ n ih =>
    intro s a hcond
    rw [Owned.insertRangeGo]
    rcases hi : s.insert a with ⟨o, s'⟩
    have hsome : o.isSome = true := by
      have := insert_fst_isSome (s := s) (v := a) (hcond a (le_refl a) (by omega))
      rw [hi] at this
      exact this
    have hlen : s'.data.length = s.data.length := by
      have := Owned_insert_length s a
      rw [hi] at this
      exact this
    cases o with
    | none => simp at hsome
    | some pb =>
      have := ih s' (a + 1) (fun v hv1 hv2 => by rw [hlen]; exact hcond v (by omega) (by omega))
      rw [hlen] at this
      exact this

theorem removeRangeGo_some : ∀ (n : Nat) (s : Owned) (a : Nat),
    (∀ v, a ≤ v → v < a + n → Inner.bits_to_chunk v < s.data.length) →
    (Owned.removeRangeGo n s a).1 = some () ∧
    ((Owned.removeRangeGo n s a).2).data.length = s.data.length := by
  intro n
  induction n with
  | zero => intro s a _; exact ⟨rfl, rfl⟩
  | succ n ih =>
    intro s a hcond
    rw [Owned.removeRangeGo]
    rcases hi : s.remove a with ⟨o, s'⟩
    have hsome : o.isSome = true := by
      have := remove_fst_isSome (s := s) (v := a) (hcond a (le_refl a) (by omega))
      rw [hi] at this
      exact this
    have hlen : s'.data.length = s.data.length := by
      have := Owned_remove_length s a
      rw [hi] at this
      exact this
    cases o with
    | none => simp at hsome
    | some pb =>
      have := ih s' (a + 1) (fun v hv1 hv2 => by rw [hlen]; exact hcond v (by omega) (by omega))
      rw [hlen] at this
      exact this

theorem insertChunksGo_some : ∀ (n : Nat) (s : Owned) (c : Nat),
    (∀ o, c ≤ o → o < c + n → o < s.data.length) →
    (Owned.insertChunksGo n s c).1 = some () ∧
    ((Owned.insertChunksGo n s c).2).data.length = s.data.length := by
  intro n
  induction n with
  | zero => intro s c _; exact ⟨rfl, rfl⟩
  | succ n ih =>
    intro s c hcond
    rw [Owned.insertChunksGo]
    rcases hi : s.insert_chunk c with ⟨o, s'⟩
    have hsome : o.isSome = true := by
      have := insert_chunk_fst_isSome (s := s) (o := c) (hcond c (le_refl c) (by omega))
      rw [hi] at this
      exact this
    have hlen : s'.data.length = s.data.length := by
      have := Owned_insert_chunk_length s c
      rw [hi] at this
      exact this
    cases o with
    | none => simp at hsome
    | some r =>
      have := ih s' (c + 1) (fun o ho1 ho2 => by rw [hlen]; exact hcond o (by omega) (by omega))
      rw [hlen] at this
      exact this

theorem removeChunksGo_some : ∀ (n : Nat) (s : Owned) (c : Nat),
    (∀ o, c ≤ o → o < c + n → o < s.data.length) →
    (Owned.removeChunksGo n s c).1 = some () ∧
    ((Owned.removeChunksGo n s c).2).data.length = s.data.length := by
  intro n
  induction n with
  | zero => intro s c _; exact ⟨rfl, rfl⟩
  | succ n ih =>
    intro s c hcond
    rw [Owned.removeChunksGo]
    rcases hi : s.remove_chunk c with ⟨o, s'⟩
    have hsome : o.isSome = true := by
      have := remove_chunk_fst_isSome (s := s) (o := c) (hcond c (le_refl c) (by omega))
      rw [hi] at this
      exact this
    have hlen : s'.data.length = s.data.length := by
      have := Owned_remove_chunk_length s c
      rw [hi] at this
      exact this
    cases o with
    | none => simp at hsome
    | some r =>
      have := ih s' (c + 1) (fun o ho1 ho2 => by rw [hlen]; exact hcond o (by omega) (by omega))
      rw [hlen] at this
      exact this

theorem qmark_fst_some {r : Option Unit × Owned} {f : Owned → Option Unit × Owned}
    (h : r.1 = some ()) : qmark r f = f r.2 := by
  rcases r with ⟨o, s⟩
  cases o
  · simp at h
  · rfl

theorem insert_all_some (s : Owned) (a b : Nat)
    (hcond : ∀ v, a ≤ v → v < b → Inner.bits_to_chunk v < s.data.length) :
    (s.insert_all a b).1 = some () ∧
    ((s.insert_all a b).2).data.length = s.data.length := by
  rw [Owned.insert_all]
  dsimp only
  have h1 := insertRangeGo_some (min (Inner.chunk_to_bits (Inner.bits_to_chunk a + 1)) b - a) s a
    (by
      intro v hv1 hv2
      apply hcond v hv1
      have : min (Inner.chunk_to_bits (Inner.bits_to_chunk a + 1)) b ≤ b := min_le_right _ _
      omega)
  rw [qmark_fst_some h1.1]
  set s₁ := (Owned.insertRangeGo (min (Inner.chunk_to_bits (Inner.bits_to_chunk a + 1)) b - a) s a).2
  have h2 := insertRangeGo_some (b - max (Inner.chunk_to_bits (Inner.bits_to_chunk b)) a) s₁
    (max (Inner.chunk_to_bits (Inner.bits_to_chunk b)) a)
    (by
      intro v hv1 hv2
      rw [h1.2]
      apply hcond v (le_trans (le_max_right _ _) hv1)
      revert hv1 hv2
      generalize max (Inner.chunk_to_bits (Inner.bits_to_chunk b)) a = M
      intro hv1 hv2
      omega)
  rw [qmark_fst_some h2.1]
  set s₂ := (Owned.insertRangeGo (b - max (Inner.chunk_to_bits (Inner.bits_to_chunk b)) a) s₁
    (max (Inner.chunk_to_bits (Inner.bits_to_chunk b)) a)).2
  have h3 := insertChunksGo_some (Inner.bits_to_chunk b - (Inner.bits_to_chunk a + 1)) s₂
    (Inner.bits_to_chunk a + 1)
    (by
      intro o ho1 ho2
      rw [h2.2, h1.2]
      have hv := hcond (64 * o) (by
        show a ≤ 64 * o
        have : Inner.bits_to_chunk a + 1 ≤ o := ho1
        show a ≤ 64 * o
        have ha : a / 64 + 1 ≤ o := this
        omega)
        (by
          have hob : o < Inner.bits_to_chunk b := by omega
          have : (o : Nat) < b / 64 := hob
          omega)
      have : Inner.bits_to_chunk (64 * o) = o := by
        show 64 * o / 64 = o
        omega
      rw [this] at hv
      exact hv)
  exact ⟨h3.1, by rw [h3.2, h2.2, h1.2]⟩

/-- C7: for every borrowed view, `maximum()` equals 64 times the number of
    words in the buffer, and `contains(value)` returns false (totally, with
    no panic) for every `value ≥ maximum()`. -/
theorem C7_maximum_and_contains (v : Borrowed) (value : Nat) (h : v.maximum ≤ value) :
    v.maximum = 64 * v.data.length ∧ v.contains value = false := by
  constructor
  · show v.data.length * 64 = 64 * v.data.length
    ring
  · rw [Borrowed_contains_eq]
    have hm : v.data.length * 64 ≤ value := h
    have hdiv : v.data.length ≤ value / 64 := by omega
    rw [getD_zero_of_le hdiv]
    simp

/-- Witness for C7 at a one-word view and the boundary value 64. -/
theorem C7_maximum_and_contains_witness :
    (Borrowed.mk [3] 1).maximum ≤ 64 ∧
      ((Borrowed.mk [3] 1).maximum = 64 * (Borrowed.mk [3] 1).data.length ∧
        (Borrowed.mk [3] 1).contains 64 = false) :=
  ⟨by decide, C7_maximum_and_contains ⟨[3], 1⟩ 64 (by decide)⟩

/-- C10: an empty range (`start ≥ end`) always succeeds and leaves the
    container untouched, even when the bounds lie beyond the capacity. -/
theorem C10_empty_range (s : Owned) (a b : Nat) (h : b ≤ a) :
    s.insert_all a b = (some (), s) ∧ s.remove_all a b = (some (), s) := by
  have h1 : min (Inner.chunk_to_bits (Inner.bits_to_chunk a + 1)) b - a = 0 :=
    Nat.sub_eq_zero_of_le (le_trans (min_le_right _ _) h)
  have h3 : b - max (Inner.chunk_to_bits (Inner.bits_to_chunk b)) a = 0 :=
    Nat.sub_eq_zero_of_le (le_trans h (le_max_right _ _))
  have h2 : Inner.bits_to_chunk b - (Inner.bits_to_chunk a + 1) = 0 := by
    show b / 64 - (a / 64 + 1) = 0
    have : b / 64 ≤ a / 64 := by omega
    omega
  constructor
  · rw [Owned.insert_all]
    dsimp only
    rw [h1, h3, h2]
    rfl
  · rw [Owned.remove_all]
    dsimp only
    rw [h1, h3, h2]
    rfl

/-- Witness for C10 with both bounds beyond the capacity of a one-word set. -/
theorem C10_empty_range_witness :
    (3 : Nat) ≤ 700 ∧
      ((Owned.with_maximum 1).insert_all 700 3 = (some (), Owned.with_maximum 1) ∧
        (Owned.with_maximum 1).remove_all 700 3 = (some (), Owned.with_maximum 1)) :=
  ⟨by omega, C10_empty_range (Owned.with_maximum 1) 700 3 (by omega)⟩

/-- C6: `grow_insert` first grows to cover `value` and the inner `insert`
    then always returns a result (the `unwrap_unchecked` absence branch is
    unreachable); likewise `insert_all` after `grow_maximum(end)` always
    succeeds for `start ≤ end`.  (Arithmetic overflow of `value + 1` does not
    exist in the `Nat` model, matching the claim's proviso.) -/
theorem C6_grow_never_fails (s : Owned) (value a b : Nat) (hab : a ≤ b) :
    (((s.grow_maximum (value + 1)).insert value).1).isSome = true ∧
    ((s.grow_maximum b).insert_all a b).1 = some () := by
  constructor
  · apply insert_fst_isSome
    rw [grow_maximum_length]
    have hM := le_max_right s.data.length (Inner.bits_to_chunk (value + 1) + 1)
    revert hM
    generalize max s.data.length (Inner.bits_to_chunk (value + 1) + 1) = M
    show M ≥ (value + 1) / 64 + 1 → value / 64 < M
    intro hM
    omega
  · apply (insert_all_some _ a b ?_).1
    intro v hv1 hv2
    rw [grow_maximum_length]
    have hM := le_max_right s.data.length (Inner.bits_to_chunk b + 1)
    revert hM
    generalize max s.data.length (Inner.bits_to_chunk b + 1) = M
    show M ≥ b / 64 + 1 → v / 64 < M
    intro hM
    have : v / 64 ≤ b / 64 := by omega
    omega

/-- Witness for C6 at a fresh set. -/
theorem C6_grow_never_fails_witness :
    (2 : Nat) ≤ 5 ∧
      ((((Owned.new).grow_maximum (5 + 1)).insert 5).1.isSome = true ∧
        (((Owned.new).grow_maximum 5).insert_all 2 5).1 = some ()) :=
  ⟨by omega, C6_grow_never_fails Owned.new 5 2 5 (by omega)⟩

theorem contains_eq_get_of_lt {s : Owned} {v : Nat}
    (h : Inner.bits_to_chunk v < s.data.length) :
    s.contains v = Inner.get (s.data.getD (Inner.bits_to_chunk v) 0) v := by
  simp [Owned.contains, Owned.as_slice, Borrowed.contains, h]

/-- Full behaviour of single-element `insert`/`remove`, both within and beyond
    capacity: prior membership is returned, the bit is set or cleared, the
    cardinality is adjusted exactly when the membership changes, no other index
    is touched, and out-of-range calls return `none` leaving the state intact. -/
theorem insert_remove_spec (s : Owned) (value : Nat) :
    (Inner.bits_to_chunk value < s.data.length →
      (s.insert value).1 = some (s.contains value) ∧
      ((s.insert value).2).contains value = true ∧
      ((s.insert value).2).len = (if s.contains value then s.len else s.len + 1) ∧
      (∀ u, u ≠ value → ((s.insert value).2).contains u = s.contains u) ∧
      (s.remove value).1 = some (s.contains value) ∧
      ((s.remove value).2).contains value = false ∧
      ((s.remove value).2).len = (if s.contains value then s.len - 1 else s.len) ∧
      (∀ u, u ≠ value → ((s.remove value).2).contains u = s.contains u)) ∧
    (s.data.length ≤ Inner.bits_to_chunk value →
      s.insert value = (none, s) ∧ s.remove value = (none, s)) := by
  constructor
  · intro hoff
    have hc : s.contains value = Inner.get (s.data.getD (Inner.bits_to_chunk value) 0) value :=
      contains_eq_get_of_lt hoff
    rw [Owned.insert, Owned.remove, if_pos hoff, if_pos hoff]
    dsimp only
    by_cases hget : Inner.get (s.data.getD (Inner.bits_to_chunk value) 0) value
    · have hcv : s.contains value = true := hc.trans hget
      rw [if_pos hget, if_pos hget]
      refine ⟨by rw [hcv], by rw [hcv], by rw [hcv]; simp, fun u _ => rfl,
        by rw [hcv], ?_, by rw [hcv]; simp, ?_⟩
      · rw [Owned_contains_eq]
        show (((s.data.set (Inner.bits_to_chunk value)
            (s.data.getD (Inner.bits_to_chunk value) 0
              &&& ((2 ^ 64 - 1) ^^^ Inner.mask value)))).getD
          (Inner.bits_to_chunk value) 0).testBit (value % 64) = false
        rw [getD_set_self s.data (Inner.bits_to_chunk value) hoff, mask_eq]
        rw [testBit_clear_bit (by omega)]
        simp
      · intro u hu
        rw [Owned_contains_eq, Owned_contains_eq]
        by_cases hch : u / 64 = Inner.bits_to_chunk value
        · rw [hch]
          show (((s.data.set (Inner.bits_to_chunk value) _)).getD
            (Inner.bits_to_chunk value) 0).testBit (u % 64) = _
          rw [getD_set_self s.data (Inner.bits_to_chunk value) hoff, mask_eq]
          rw [testBit_clear_bit (by omega)]
          have hdiv : u / 64 = value / 64 := hch
          have hne : ¬(u % 64 = value % 64) := by omega
          simp [hne]
        · rw [getD_set_ne s.data (Inner.bits_to_chunk value) (u / 64) (Ne.symm hch) _]
    · have hcv : s.contains value = false := by
        rw [hc]
        simpa using hget
      rw [if_neg hget, if_neg hget]
      refine ⟨by rw [hcv], ?_, by rw [hcv]; simp, ?_, by rw [hcv], by rw [hcv],
        by rw [hcv]; simp, fun u _ => rfl⟩
      · rw [Owned_contains_eq]
        show (((s.data.set (Inner.bits_to_chunk value)
            (s.data.getD (Inner.bits_to_chunk value) 0 ||| Inner.mask value))).getD
          (Inner.bits_to_chunk value) 0).testBit (value % 64) = true
        rw [getD_set_self s.data (Inner.bits_to_chunk value) hoff, mask_eq]
        rw [testBit_set_bit]
        simp
      · intro u hu
        rw [Owned_contains_eq, Owned_contains_eq]
        by_cases hch : u / 64 = Inner.bits_to_chunk value
        · rw [hch]
          show (((s.data.set (Inner.bits_to_chunk value) _)).getD
            (Inner.bits_to_chunk value) 0).testBit (u % 64) = _
          rw [getD_set_self s.data (Inner.bits_to_chunk value) hoff, mask_eq]
          rw [testBit_set_bit]
          have hdiv : u / 64 = value / 64 := hch
          have hne : ¬(u % 64 = value % 64) := by omega
          simp [hne]
        · rw [getD_set_ne s.data (Inner.bits_to_chunk value) (u / 64) (Ne.symm hch) _]
  · intro hle
    exact ⟨insert_of_le hle, remove_of_le hle⟩

/-- C4: within capacity, `insert` returns the prior membership, sets the bit
    and bumps the cardinality exactly when it was clear, and touches no other
    index; beyond capacity it returns `none` with the container unchanged.
    `remove` is symmetric. -/
theorem C4_insert_remove (s : Owned) (value : Nat) :
    (Inner.bits_to_chunk value < s.data.length →
      (s.insert value).1 = some (s.contains value) ∧
      ((s.insert value).2).contains value = true ∧
      ((s.insert value).2).len = (if s.contains value then s.len else s.len + 1) ∧
      (∀ u, u ≠ value → ((s.insert value).2).contains u = s.contains u) ∧
      (s.remove value).1 = some (s.contains value) ∧
      ((s.remove value).2).contains value = false ∧
      ((s.remove value).2).len = (if s.contains value then s.len - 1 else s.len) ∧
      (∀ u, u ≠ value → ((s.remove value).2).contains u = s.contains u)) ∧
    (s.data.length ≤ Inner.bits_to_chunk value →
      s.insert value = (none, s) ∧ s.remove value = (none, s)) :=
  insert_remove_spec s value

/-- Witness for C4 on a one-word set containing 3, at the in-range value 3
    and the out-of-range value 64. -/
theorem C4_insert_remove_witness :
    (Inner.bits_to_chunk 3 < (Owned.mk [8] 1).data.length →
      ((Owned.mk [8] 1).insert 3).1 = some ((Owned.mk [8] 1).contains 3) ∧
      (((Owned.mk [8] 1).insert 3).2).contains 3 = true ∧
      (((Owned.mk [8] 1).insert 3).2).len
        = (if (Owned.mk [8] 1).contains 3 then (Owned.mk [8] 1).len
            else (Owned.mk [8] 1).len + 1) ∧
      (∀ u, u ≠ 3 → (((Owned.mk [8] 1).insert 3).2).contains u = (Owned.mk [8] 1).contains u) ∧
      ((Owned.mk [8] 1).remove 3).1 = some ((Owned.mk [8] 1).contains 3) ∧
      (((Owned.mk [8] 1).remove 3).2).contains 3 = false ∧
      (((Owned.mk [8] 1).remove 3).2).len
        = (if (Owned.mk [8] 1).contains 3 then (Owned.mk [8] 1).len - 1
            else (Owned.mk [8] 1).len) ∧
      (∀ u, u ≠ 3 → (((Owned.mk [8] 1).remove 3).2).contains u = (Owned.mk [8] 1).contains u)) ∧
    ((Owned.mk [8] 1).data.length ≤ Inner.bits_to_chunk 3 →
      (Owned.mk [8] 1).insert 3 = (none, Owned.mk [8] 1) ∧
      (Owned.mk [8] 1).remove 3 = (none, Owned.mk [8] 1)) :=
  C4_insert_remove (Owned.mk [8] 1) 3

/-- C1: starting from `new()` or `with_maximum(m)`, after any prefix of any
    sequence of valid public mutating operations the tracked cardinality
    equals the number of indices whose `contains` is true (and `contains` is
    false beyond the capacity, so that number is finite). -/
theorem C1_cardinality_invariant (init : Owned) (ops : List Op) (k : Nat)
    (hinit : init = Owned.new ∨ ∃ m, init = Owned.with_maximum m)
    (hok : ∀ op ∈ ops, Op.ArgOk op) :
    (runOps (ops.take k) init).len
      = (List.range (64 * (runOps (ops.take k) init).data.length)).countP
          (fun i => (runOps (ops.take k) init).contains i) ∧
    ∀ i, (runOps (ops.take k) init).contains i = true
      → i < 64 * (runOps (ops.take k) init).data.length := by
  have hInvInit : init.Inv := by
    rcases hinit with rfl | ⟨m, rfl⟩
    · exact Inv_new
    · exact Inv_with_maximum m
  have hInv : (runOps (ops.take k) init).Inv :=
    Inv_runOps _ _ hInvInit (fun op hop => hok op (List.mem_of_mem_take hop))
  obtain ⟨hlen, hb⟩ := hInv
  constructor
  · rw [hlen, totalPop_eq_countP_testBit]
    apply List.countP_congr
    intro i _
    rw [Owned_contains_eq]
  · intro i hc
    rw [Owned_contains_eq] at hc
    by_contra hge
    push_neg at hge
    rw [getD_zero_of_le (by omega)] at hc
    simp at hc

/-- Witness for C1 on a short concrete operation sequence. -/
theorem C1_cardinality_invariant_witness :
    (runOps ([Op.growInsertOp 100, Op.insertOp 3, Op.removeOp 100].take 3) Owned.new).len
      = (List.range (64 * (runOps ([Op.growInsertOp 100, Op.insertOp 3,
            Op.removeOp 100].take 3) Owned.new).data.length)).countP
          (fun i => (runOps ([Op.growInsertOp 100, Op.insertOp 3,
            Op.removeOp 100].take 3) Owned.new).contains i) ∧
    ∀ i, (runOps ([Op.growInsertOp 100, Op.insertOp 3,
        Op.removeOp 100].take 3) Owned.new).contains i = true
      → i < 64 * (runOps ([Op.growInsertOp 100, Op.insertOp 3,
          Op.removeOp 100].take 3) Owned.new).data.length :=
  C1_cardinality_invariant Owned.new [Op.growInsertOp 100, Op.insertOp 3, Op.removeOp 100] 3
    (Or.inl rfl)
    (by
      intro op hop
      rcases List.mem_cons.1 hop with rfl | hop
      · trivial
      rcases List.mem_cons.1 hop with rfl | hop
      · trivial
      rcases List.mem_cons.1 hop with rfl | hop
      · trivial
      · simp at hop)

/-- C2: on a view whose cardinality counts its set bits, `ascending()` yields
    a strictly increasing sequence of exactly `len` indices — precisely those
    with `contains` true — and once exhausted every further `next()` returns
    `none`. -/
theorem C2_ascending (v : Borrowed) (hb : ∀ w ∈ v.data, w < 2 ^ 64)
    (hlen : v.len = totalPop v.data) :
    List.Pairwise (· < ·) (Ascending.toList v.ascending) ∧
    (Ascending.toList v.ascending).length = v.len ∧
    (∀ i, i ∈ Ascending.toList v.ascending ↔ v.contains i = true) ∧
    (∀ k, v.len ≤ k → ((Ascending.stepN k v.ascending).next).1 = none) := by
  have hv : AscValid v.ascending := by
    rw [Borrowed.ascending, hlen]
    exact AscValid_new hb
  have htl : Ascending.toList v.ascending = ascSpec v.data := by
    rw [asc_toList_eq hv]
    exact ascRest_new v.data v.len
  refine ⟨?_, ?_, ?_, ?_⟩
  · rw [htl]
    exact ascSpec_sorted v.data
  · rw [htl, ascSpec_length, hlen]
  · intro i
    rw [htl, mem_ascSpec, Borrowed_contains_eq]
  · intro k hk
    have hzero : (Ascending.stepN k v.ascending).len = 0 := by
      rw [Ascending_stepN_len]
      have hvl : v.ascending.len = v.len := rfl
      omega
    rw [Ascending_next_of_len_zero hzero]

/-- Witness for C2 on the one-element set containing 5. -/
theorem C2_ascending_witness :
    ((∀ w ∈ (Borrowed.mk [32] 1).data, w < 2 ^ 64) ∧
      (Borrowed.mk [32] 1).len = totalPop (Borrowed.mk [32] 1).data) ∧
    (List.Pairwise (· < ·) (Ascending.toList (Borrowed.mk [32] 1).ascending) ∧
      (Ascending.toList (Borrowed.mk [32] 1).ascending).length = (Borrowed.mk [32] 1).len ∧
      (∀ i, i ∈ Ascending.toList (Borrowed.mk [32] 1).ascending
        ↔ (Borrowed.mk [32] 1).contains i = true) ∧
      (∀ k, (Borrowed.mk [32] 1).len ≤ k →
        ((Ascending.stepN k (Borrowed.mk [32] 1).ascending).next).1 = none)) :=
  ⟨⟨by decide, by decide⟩, C2_ascending ⟨[32], 1⟩ (by decide) (by decide)⟩

/-- C3: on a view whose cardinality counts its set bits, `descending()`
    yields exactly the reverse of `ascending()`: the same `len` indices in
    strictly decreasing order. -/
theorem C3_descending_duality (v : Borrowed) (hb : ∀ w ∈ v.data, w < 2 ^ 64)
    (hlen : v.len = totalPop v.data) :
    Descending.toList v.descending = (Ascending.toList v.ascending).reverse ∧
    List.Pairwise (· > ·) (Descending.toList v.descending) ∧
    (Descending.toList v.descending).length = v.len := by
  have hva : AscValid v.ascending := by
    rw [Borrowed.ascending, hlen]
    exact AscValid_new hb
  have hvd : DescValid v.descending := by
    rw [Borrowed.descending, hlen]
    exact DescValid_new hb
  have hta : Ascending.toList v.ascending = ascSpec v.data := by
    rw [asc_toList_eq hva]
    exact ascRest_new v.data v.len
  have htd : Descending.toList v.descending = (ascSpec v.data).reverse := by
    rw [desc_toList_eq hvd]
    exact descRest_new v.data v.len
  refine ⟨by rw [htd, hta], ?_, ?_⟩
  · rw [htd]
    apply (List.pairwise_reverse).2
    exact (ascSpec_sorted v.data).imp (fun h => h)
  · rw [htd, List.length_reverse, ascSpec_length, hlen]

/-- Witness for C3 on the two-element set containing 5 and 6. -/
theorem C3_descending_duality_witness :
    ((∀ w ∈ (Borrowed.mk [96] 2).data, w < 2 ^ 64) ∧
      (Borrowed.mk [96] 2).len = totalPop (Borrowed.mk [96] 2).data) ∧
    (Descending.toList (Borrowed.mk [96] 2).descending
        = (Ascending.toList (Borrowed.mk [96] 2).ascending).reverse ∧
      List.Pairwise (· > ·) (Descending.toList (Borrowed.mk [96] 2).descending) ∧
      (Descending.toList (Borrowed.mk [96] 2).descending).length = (Borrowed.mk [96] 2).len) :=
  ⟨⟨by decide, by decide⟩, C3_descending_duality ⟨[96], 2⟩ (by decide) (by decide)⟩

/-- C8: on views whose cardinalities count their set bits, `Ord::cmp` is the
    lexicographic comparison of the ascending member sequences (a strict
    prefix comparing first, encoded in `lexCompare`); concretely, two empty
    sets compare equal, `{5}` compares greater than `{3}`, and `{5}` compares
    less than `{5, 6}`. -/
theorem C8_total_order (a b : Borrowed)
    (hba : ∀ w ∈ a.data, w < 2 ^ 64) (hlena : a.len = totalPop a.data)
    (hbb : ∀ w ∈ b.data, w < 2 ^ 64) (hlenb : b.len = totalPop b.data) :
    Borrowed.cmp a b = lexCompare (ascSpec a.data) (ascSpec b.data) ∧
    Borrowed.cmp ⟨[], 0⟩ ⟨[], 0⟩ = Ordering.eq ∧
    Borrowed.cmp ⟨[32], 1⟩ ⟨[8], 1⟩ = Ordering.gt ∧
    Borrowed.cmp ⟨[32], 1⟩ ⟨[96], 2⟩ = Ordering.lt := by
  refine ⟨?_, by decide, by decide, by decide⟩
  have hva : AscValid a.ascending := by
    rw [Borrowed.ascending, hlena]
    exact AscValid_new hba
  have hvb : AscValid b.ascending := by
    rw [Borrowed.ascending, hlenb]
    exact AscValid_new hbb
  have hta : Ascending.toList a.ascending = ascSpec a.data := by
    rw [asc_toList_eq hva]
    exact ascRest_new a.data a.len
  have htb : Ascending.toList b.ascending = ascSpec b.data := by
    rw [asc_toList_eq hvb]
    exact ascRest_new b.data b.len
  rw [Borrowed.cmp, cmpAux_eq_lex (a.len + 1) _ _ hva hvb (by
    show a.ascending.len < a.len + 1
    have : a.ascending.len = a.len := rfl
    omega)]
  rw [hta, htb]

/-- Witness for C8 comparing the sets containing 5 and containing 5 and 6. -/
theorem C8_total_order_witness :
    (((∀ w ∈ (Borrowed.mk [32] 1).data, w < 2 ^ 64) ∧
        (Borrowed.mk [32] 1).len = totalPop (Borrowed.mk [32] 1).data) ∧
      ((∀ w ∈ (Borrowed.mk [96] 2).data, w < 2 ^ 64) ∧
        (Borrowed.mk [96] 2).len = totalPop (Borrowed.mk [96] 2).data)) ∧
    (Borrowed.cmp ⟨[32], 1⟩ ⟨[96], 2⟩
        = lexCompare (ascSpec (Borrowed.mk [32] 1).data) (ascSpec (Borrowed.mk [96] 2).data) ∧
      Borrowed.cmp ⟨[], 0⟩ ⟨[], 0⟩ = Ordering.eq ∧
      Borrowed.cmp ⟨[32], 1⟩ ⟨[8], 1⟩ = Ordering.gt ∧
      Borrowed.cmp ⟨[32], 1⟩ ⟨[96], 2⟩ = Ordering.lt) :=
  ⟨⟨⟨by decide, by decide⟩, ⟨by decide, by decide⟩⟩,
    C8_total_order ⟨[32], 1⟩ ⟨[96], 2⟩ (by decide) (by decide) (by decide) (by decide)⟩

theorem getD_replicate_zero : ∀ (k n : Nat), (List.replicate k (0 : Nat)).getD n 0 = 0 := by
  intro k
  induction k with
  | zero => intro n; cases n <;> rfl
  | succ k ih =>
    intro n
    cases n with
    | zero => rfl
    | succ n => exact ih n

theorem getD_append_replicate_zero : ∀ (l : List Nat) (k n : Nat),
    ((l ++ List.replicate k 0).getD n 0) = l.getD n 0 := by
  intro l
  induction l with
  | nil => intro k n; exact getD_replicate_zero k n
  | cons a t ih =>
    intro k n
    cases n with
    | zero => rfl
    | succ n => exact ih k n

theorem grow_maximum_len_field (s : Owned) (m : Nat) : (s.grow_maximum m).len = s.len := by
  rw [Owned.grow_maximum]
  split <;> rfl

theorem contains_grow_maximum (s : Owned) (m u : Nat) :
    (s.grow_maximum m).contains u = s.contains u := by
  rw [Owned_contains_eq, Owned_contains_eq, Owned.grow_maximum]
  split
  · show ((s.data ++ List.replicate _ 0).getD (u / 64) 0).testBit (u % 64) = _
    rw [getD_append_replicate_zero]
  · rfl

theorem grow_insert_chunk_lt (s : Owned) (v : Nat) :
    Inner.bits_to_chunk v < (s.grow_maximum (v + 1)).data.length := by
  rw [grow_maximum_length]
  have hM := le_max_right s.data.length (Inner.bits_to_chunk (v + 1) + 1)
  revert hM
  generalize max s.data.length (Inner.bits_to_chunk (v + 1) + 1) = M
  show M ≥ (v + 1) / 64 + 1 → v / 64 < M
  intro hM
  omega

theorem grow_insert_state (s : Owned) (v : Nat) :
    (s.grow_insert v).2 = ((s.grow_maximum (v + 1)).insert v).2 := by
  rw [Owned.grow_insert]
  rcases hi : (s.grow_maximum (v + 1)).insert v with ⟨o, s₂⟩
  cases o <;> rfl

theorem contains_grow_insert (s : Owned) (v u : Nat) :
    ((s.grow_insert v).2).contains u = (s.contains u || decide (u = v)) := by
  rw [grow_insert_state]
  have hchunk := grow_insert_chunk_lt s v
  have hC4 := (insert_remove_spec (s.grow_maximum (v + 1)) v).1 hchunk
  by_cases huv : u = v
  · subst huv
    rw [hC4.2.1]
    simp
  · rw [hC4.2.2.2.1 u huv, contains_grow_maximum]
    simp [huv]

theorem len_grow_insert (s : Owned) (v : Nat) :
    ((s.grow_insert v).2).len = (if s.contains v then s.len else s.len + 1) := by
  rw [grow_insert_state]
  have hchunk := grow_insert_chunk_lt s v
  have hC4 := (insert_remove_spec (s.grow_maximum (v + 1)) v).1 hchunk
  rw [hC4.2.2.1, contains_grow_maximum, grow_maximum_len_field]

theorem grow_insert_length (s : Owned) (v : Nat) :
    ((s.grow_insert v).2).data.length
      = max s.data.length (Inner.bits_to_chunk (v + 1) + 1) := by
  rw [grow_insert_state, ← grow_maximum_length]
  exact Owned_insert_length _ v

theorem contains_extend : ∀ (vs : List Nat) (s : Owned) (u : Nat),
    ((s.extend vs)).contains u = (s.contains u || decide (u ∈ vs)) := by
  intro vs
  induction vs with
  | nil => intro s u; simp [Owned.extend]
  | cons v rest ih =>
    intro s u
    show ((Owned.extend (s.grow_insert v).2 rest)).contains u = _
    rw [ih, contains_grow_insert]
    by_cases h1 : u = v <;> by_cases h2 : u ∈ rest <;>
      simp [h1, h2, List.mem_cons]

theorem extend_length : ∀ (vs : List Nat) (s : Owned),
    (s.extend vs).data.length
      = vs.foldl (fun L v => max L (Inner.bits_to_chunk (v + 1) + 1)) s.data.length := by
  intro vs
  induction vs with
  | nil => intro s; rfl
  | cons v rest ih =>
    intro s
    show (Owned.extend (s.grow_insert v).2 rest).data.length = _
    rw [ih, grow_insert_length]
    rfl

theorem foldl_chunkmax_ge_init : ∀ (vs : List Nat) (init : Nat),
    init ≤ vs.foldl (fun L v => max L (Inner.bits_to_chunk (v + 1) + 1)) init := by
  intro vs
  induction vs with
  | nil => intro init; exact le_refl init
  | cons v rest ih =>
    intro init
    exact le_trans (le_max_left init _) (ih _)

theorem foldl_chunkmax_ge : ∀ (vs : List Nat) (init v : Nat), v ∈ vs →
    Inner.bits_to_chunk (v + 1) + 1
      ≤ vs.foldl (fun L u => max L (Inner.bits_to_chunk (u + 1) + 1)) init := by
  intro vs
  induction vs with
  | nil => intro init v hv; simp at hv
  | cons u rest ih =>
    intro init v hv
    rcases List.mem_cons.1 hv with rfl | hv
    · exact le_trans (le_max_right init _) (foldl_chunkmax_ge_init rest _)
    · exact ih _ v hv

theorem Inv_extend : ∀ (vs : List Nat) (s : Owned), s.Inv → (s.extend vs).Inv := by
  intro vs
  induction vs with
  | nil => intro s h; exact h
  | cons v rest ih =>
    intro s h
    exact ih _ (Inv_grow_insert h v)

theorem contains_new (i : Nat) : Owned.new.contains i = false := by
  rw [Owned_contains_eq]
  show ((List.getD [] (i / 64) 0)).testBit (i % 64) = false
  cases h : i / 64 <;> simp

theorem countP_mem_eq_dedup_length (vs : List Nat) (N : Nat) (hN : ∀ v ∈ vs, v < N) :
    (List.range N).countP (fun i => decide (i ∈ vs)) = vs.dedup.length := by
  rw [List.countP_eq_length_filter]
  have h1 : ((List.range N).filter (fun i => decide (i ∈ vs))).Nodup :=
    (List.nodup_range N).filter _
  have h2 : vs.dedup.Nodup := List.nodup_dedup vs
  have hfin : ((List.range N).filter (fun i => decide (i ∈ vs))).toFinset
      = vs.dedup.toFinset := by
    ext x
    simp only [List.mem_toFinset, List.mem_filter, List.mem_range, List.mem_dedup,
      decide_eq_true_eq]
    constructor
    · exact fun h => h.2
    · exact fun h => ⟨hN x h, h⟩
  have := congrArg Finset.card hfin
  rw [List.toFinset_card_of_nodup h1, List.toFinset_card_of_nodup h2] at this
  exact this

/-- C9, counterexample to the capacity clause as stated: building a set from
    the single value 63 via `from_iterator` yields capacity 128 (two words),
    although one word — capacity 64, as allocated by `with_maximum 1` — is
    exactly enough to cover 63: `insert 63` already succeeds there.
    `grow_insert` grows to `value + 1` bits and `grow_maximum` always
    allocates `bits_to_chunk(maximum) + 1` words, one more than necessary
    whenever `value + 1` is a multiple of 64. -/
theorem C9_from_iterator_counterexample :
    (Owned.from_iterator [63]).maximum = 128 ∧
    (Owned.with_maximum 1).maximum = 64 ∧
    ((Owned.with_maximum 1).insert 63).1 = some false ∧
    63 < 64 := by decide

/-- C9 (amended): a set built by `from_iterator` — `extend` from the empty
    set, one `grow_insert` per value — contains exactly the distinct values of
    the sequence, its cardinality is their count (duplicates collapse), and its
    capacity covers every inserted value.  The capacity is, however, not
    exactly the minimum needed for the largest value: `grow_insert(v)`
    requests `bits_to_chunk(v + 1) + 1` words, one more than necessary
    whenever `v + 1` is a multiple of 64 (see the counterexample), and the
    amortized `Vec::reserve` may allocate beyond the request, so no exact
    capacity (nor any non-trivial upper bound on it) is a property of the
    program. -/
theorem C9_from_iterator (vs : List Nat) :
    (∀ i, (Owned.from_iterator vs).contains i = decide (i ∈ vs)) ∧
    (Owned.from_iterator vs).len = vs.dedup.length ∧
    (∀ v ∈ vs, v < (Owned.from_iterator vs).maximum) := by
  have hcont : ∀ i, (Owned.from_iterator vs).contains i = decide (i ∈ vs) := by
    intro i
    rw [Owned.from_iterator, contains_extend, contains_new]
    simp
  have hlen : (Owned.from_iterator vs).data.length
      = vs.foldl (fun L v => max L (Inner.bits_to_chunk (v + 1) + 1)) 0 := by
    rw [Owned.from_iterator, extend_length]
    rfl
  have hcover : ∀ v ∈ vs, v < (Owned.from_iterator vs).maximum := by
    intro v hv
    have h1 := foldl_chunkmax_ge vs 0 v hv
    rw [← hlen] at h1
    revert h1
    show (v + 1) / 64 + 1 ≤ (Owned.from_iterator vs).data.length →
      v < (Owned.from_iterator vs).data.length * 64
    generalize (Owned.from_iterator vs).data.length = L
    intro h
    omega
  refine ⟨hcont, ?_, hcover⟩
  have hInv : (Owned.from_iterator vs).Inv := Inv_extend vs Owned.new Inv_new
  rw [hInv.1, totalPop_eq_countP_testBit]
  have hcongr : (List.range (64 * (Owned.from_iterator vs).data.length)).countP
      (fun i => ((Owned.from_iterator vs).data.getD (i / 64) 0).testBit (i % 64))
      = (List.range (64 * (Owned.from_iterator vs).data.length)).countP
        (fun i => decide (i ∈ vs)) := by
    apply List.countP_congr
    intro x _
    rw [← Owned_contains_eq, hcont x]
  rw [hcongr]
  apply countP_mem_eq_dedup_length
  intro v hv
  have h2 := hcover v hv
  revert h2
  show v < (Owned.from_iterator vs).data.length * 64 →
    v < 64 * (Owned.from_iterator vs).data.length
  generalize (Owned.from_iterator vs).data.length = L
  intro h
  omega

theorem contains_insert {s : Owned} {v : Nat} (h : Inner.bits_to_chunk v < s.data.length)
    (u : Nat) : ((s.insert v).2).contains u = (s.contains u || decide (u = v)) := by
  obtain ⟨h1, h2, h3, h4, _⟩ := (insert_remove_spec s v).1 h
  by_cases huv : u = v
  · subst huv
    rw [h2]
    simp
  · rw [h4 u huv]
    simp [huv]

theorem contains_remove {s : Owned} {v : Nat} (h : Inner.bits_to_chunk v < s.data.length)
    (u : Nat) : ((s.remove v).2).contains u = (s.contains u && !decide (u = v)) := by
  obtain ⟨h1, h2, h3, h4, h5, h6, h7, h8⟩ := (insert_remove_spec s v).1 h
  by_cases huv : u = v
  · subst huv
    rw [h6]
    simp
  · rw [h8 u huv]
    simp [huv]

theorem contains_insert_chunk {s : Owned} {o : Nat} (h : o < s.data.length) (u : Nat) :
    ((s.insert_chunk o).2).contains u = (s.contains u || decide (u / 64 = o)) := by
  rw [Owned.insert_chunk, if_pos h]
  rw [Owned_contains_eq, Owned_contains_eq]
  by_cases huo : u / 64 = o
  · rw [huo]
    show ((s.data.set o (2 ^ 64 - 1)).getD o 0).testBit (u % 64) = _
    rw [getD_set_self s.data o h, Nat.testBit_two_pow_sub_one]
    have hm : u % 64 < 64 := Nat.mod_lt u (by omega)
    simp [hm]
  · show ((s.data.set o (2 ^ 64 - 1)).getD (u / 64) 0).testBit (u % 64) = _
    rw [getD_set_ne s.data o (u / 64) (fun he => huo he.symm)]
    simp [huo]

theorem contains_remove_chunk {s : Owned} {o : Nat} (h : o < s.data.length) (u : Nat) :
    ((s.remove_chunk o).2).contains u = (s.contains u && !decide (u / 64 = o)) := by
  rw [Owned.remove_chunk, if_pos h]
  rw [Owned_contains_eq, Owned_contains_eq]
  by_cases huo : u / 64 = o
  · rw [huo]
    show ((s.data.set o 0).getD o 0).testBit (u % 64) = _
    rw [getD_set_self s.data o h]
    simp [huo, Nat.zero_testBit]
  · show ((s.data.set o 0).getD (u / 64) 0).testBit (u % 64) = _
    rw [getD_set_ne s.data o (u / 64) (fun he => huo he.symm)]
    simp [huo]

theorem insertRangeGo_contains : ∀ (n : Nat) (s : Owned) (a : Nat),
    (∀ v, a ≤ v → v < a + n → Inner.bits_to_chunk v < s.data.length) →
    ∀ u, ((Owned.insertRangeGo n s a).2).contains u
      = (s.contains u || decide (a ≤ u ∧ u < a + n)) := by
  intro n
  induction n with
  | zero =>
    intro s a _ u
    have hf : decide (a ≤ u ∧ u < a + 0) = false := decide_eq_false (by omega)
    rw [Owned.insertRangeGo, hf]
    simp
  | succ n ih =>
    intro s a hcond u
    rw [Owned.insertRangeGo]
    rcases hi : s.insert a with ⟨o, s'⟩
    have hsome : o.isSome = true := by
      have := insert_fst_isSome (s := s) (v := a) (hcond a (le_refl a) (by omega))
      rw [hi] at this
      exact this
    have hlen : s'.data.length = s.data.length := by
      have := Owned_insert_length s a
      rw [hi] at this
      exact this
    have hc : s'.contains u = (s.contains u || decide (u = a)) := by
      have := contains_insert (hcond a (le_refl a) (by omega)) u
      rw [hi] at this
      exact this
    cases o with
    | none => simp at hsome
    | some pb =>
      rw [ih s' (a + 1) (fun v hv1 hv2 => by rw [hlen]; exact hcond v (by omega) (by omega)) u]
      rw [hc]
      by_cases h1 : u = a
      · have hd1 : (decide (u = a)) = true := decide_eq_true h1
        have hd2 : decide (a ≤ u ∧ u < a + (n + 1)) = true := decide_eq_true (by omega)
        rw [hd1, hd2]
        simp
      · have he : decide (a + 1 ≤ u ∧ u < a + 1 + n) = decide (a ≤ u ∧ u < a + (n + 1)) :=
          decide_eq_decide.2 (by omega)
        rw [he]
        simp [h1]

theorem removeRangeGo_contains : ∀ (n : Nat) (s : Owned) (a : Nat),
    (∀ v, a ≤ v → v < a + n → Inner.bits_to_chunk v < s.data.length) →
    ∀ u, ((Owned.removeRangeGo n s a).2).contains u
      = (s.contains u && !decide (a ≤ u ∧ u < a + n)) := by
  intro n
  induction n with
  | zero =>
    intro s a _ u
    have hf : decide (a ≤ u ∧ u < a + 0) = false := decide_eq_false (by omega)
    rw [Owned.removeRangeGo, hf]
    simp
  | succ n ih =>
    intro s a hcond u
    rw [Owned.removeRangeGo]
    rcases hi : s.remove a with ⟨o, s'⟩
    have hsome : o.isSome = true := by
      have := remove_fst_isSome (s := s) (v := a) (hcond a (le_refl a) (by omega))
      rw [hi] at this
      exact this
    have hlen : s'.data.length = s.data.length := by
      have := Owned_remove_length s a
      rw [hi] at this
      exact this
    have hc : s'.contains u = (s.contains u && !decide (u = a)) := by
      have := contains_remove (hcond a (le_refl a) (by omega)) u
      rw [hi] at this
      exact this
    cases o with
    | none => simp at hsome
    | some pb =>
      rw [ih s' (a + 1) (fun v hv1 hv2 => by rw [hlen]; exact hcond v (by omega) (by omega)) u]
      rw [hc]
      by_cases h1 : u = a
      · have hd1 : (decide (u = a)) = true := decide_eq_true h1
        have hd2 : decide (a ≤ u ∧ u < a + (n + 1)) = true := decide_eq_true (by omega)
        rw [hd1, hd2]
        simp
      · have he : decide (a + 1 ≤ u ∧ u < a + 1 + n) = decide (a ≤ u ∧ u < a + (n + 1)) :=
          decide_eq_decide.2 (by omega)
        rw [he]
        simp [h1]

theorem insertChunksGo_contains : ∀ (n : Nat) (s : Owned) (c : Nat),
    (∀ o, c ≤ o → o < c + n → o < s.data.length) →
    ∀ u, ((Owned.insertChunksGo n s c).2).contains u
      = (s.contains u || decide (c ≤ u / 64 ∧ u / 64 < c + n)) := by
  intro n
  induction n with
  | zero =>
    intro s c _ u
    have hf : decide (c ≤ u / 64 ∧ u / 64 < c + 0) = false := decide_eq_false (by omega)
    rw [Owned.insertChunksGo, hf]
    simp
  | succ n ih =>
    intro s c hcond u
    rw [Owned.insertChunksGo]
    rcases hi : s.insert_chunk c with ⟨o, s'⟩
    have hsome : o.isSome = true := by
      have := insert_chunk_fst_isSome (s := s) (o := c) (hcond c (le_refl c) (by omega))
      rw [hi] at this
      exact this
    have hlen : s'.data.length = s.data.length := by
      have := Owned_insert_chunk_length s c
      rw [hi] at this
      exact this
    have hc : s'.contains u = (s.contains u || decide (u / 64 = c)) := by
      have := contains_insert_chunk (hcond c (le_refl c) (by omega)) u
      rw [hi] at this
      exact this
    cases o with
    | none => simp at hsome
    | some w =>
      rw [ih s' (c + 1) (fun o ho1 ho2 => by rw [hlen]; exact hcond o (by omega) (by omega)) u]
      rw [hc]
      by_cases h1 : u / 64 = c
      · have ht : (c ≤ u / 64 ∧ u / 64 < c + (n + 1)) := by omega
        simp [h1, ht]
      · have he : decide (c + 1 ≤ u / 64 ∧ u / 64 < c + 1 + n)
            = decide (c ≤ u / 64 ∧ u / 64 < c + (n + 1)) :=
          decide_eq_decide.2 (by omega)
        rw [he]
        simp [h1]

theorem removeChunksGo_contains : ∀ (n : Nat) (s : Owned) (c : Nat),
    (∀ o, c ≤ o → o < c + n → o < s.data.length) →
    ∀ u, ((Owned.removeChunksGo n s c).2).contains u
      = (s.contains u && !decide (c ≤ u / 64 ∧ u / 64 < c + n)) := by
  intro n
  induction n with
  | zero =>
    intro s c _ u
    have hf : decide (c ≤ u / 64 ∧ u / 64 < c + 0) = false := decide_eq_false (by omega)
    rw [Owned.removeChunksGo, hf]
    simp
  | succ n ih =>
    intro s c hcond u
    rw [Owned.removeChunksGo]
    rcases hi : s.remove_chunk c with ⟨o, s'⟩
    have hsome : o.isSome = true := by
      have := remove_chunk_fst_isSome (s := s) (o := c) (hcond c (le_refl c) (by omega))
      rw [hi] at this
      exact this
    have hlen : s'.data.length = s.data.length := by
      have := Owned_remove_chunk_length s c
      rw [hi] at this
      exact this
    have hc : s'.contains u = (s.contains u && !decide (u / 64 = c)) := by
      have := contains_remove_chunk (hcond c (le_refl c) (by omega)) u
      rw [hi] at this
      exact this
    cases o with
    | none => simp at hsome
    | some w =>
      rw [ih s' (c + 1) (fun o ho1 ho2 => by rw [hlen]; exact hcond o (by omega) (by omega)) u]
      rw [hc]
      by_cases h1 : u / 64 = c
      · have ht : (c ≤ u / 64 ∧ u / 64 < c + (n + 1)) := by omega
        simp [h1, ht]
      · have he : decide (c + 1 ≤ u / 64 ∧ u / 64 < c + 1 + n)
            = decide (c ≤ u / 64 ∧ u / 64 < c + (n + 1)) :=
          decide_eq_decide.2 (by omega)
        rw [he]
        simp [h1]

theorem insertRangeGo_none : ∀ (n : Nat) (s : Owned) (a v : Nat), a ≤ v → v < a + n →
    s.data.length ≤ Inner.bits_to_chunk v → (Owned.insertRangeGo n s a).1 = none := by
  intro n
  induction n with
  | zero => intro s a v h1 h2 _; omega
  | succ n ih =>
    intro s a v h1 h2 h3
    rw [Owned.insertRangeGo]
    by_cases ha : Inner.bits_to_chunk a < s.data.length
    · rcases hi : s.insert a with ⟨o, s'⟩
      have hsome : o.isSome = true := by
        have := insert_fst_isSome (s := s) (v := a) ha
        rw [hi] at this
        exact this
      have hlen : s'.data.length = s.data.length := by
        have := Owned_insert_length s a
        rw [hi] at this
        exact this
      cases o with
      | none => simp at hsome
      | some pb =>
        have hva : v ≠ a := by
          intro he
          rw [he] at h3
          omega
        exact ih s' (a + 1) v (by omega) (by omega) (by rw [hlen]; exact h3)
    · rw [insert_of_le (by omega)]

theorem removeRangeGo_none : ∀ (n : Nat) (s : Owned) (a v : Nat), a ≤ v → v < a + n →
    s.data.length ≤ Inner.bits_to_chunk v → (Owned.removeRangeGo n s a).1 = none := by
  intro n
  induction n with
  | zero => intro s a v h1 h2 _; omega
  | succ n ih =>
    intro s a v h1 h2 h3
    rw [Owned.removeRangeGo]
    by_cases ha : Inner.bits_to_chunk a < s.data.length
    · rcases hi : s.remove a with ⟨o, s'⟩
      have hsome : o.isSome = true := by
        have := remove_fst_isSome (s := s) (v := a) ha
        rw [hi] at this
        exact this
      have hlen : s'.data.length = s.data.length := by
        have := Owned_remove_length s a
        rw [hi] at this
        exact this
      cases o with
      | none => simp at hsome
      | some pb =>
        have hva : v ≠ a := by
          intro he
          rw [he] at h3
          omega
        exact ih s' (a + 1) v (by omega) (by omega) (by rw [hlen]; exact h3)
    · rw [remove_of_le (by omega)]

theorem insertChunksGo_none : ∀ (n : Nat) (s : Owned) (c o : Nat), c ≤ o → o < c + n →
    s.data.length ≤ o → (Owned.insertChunksGo n s c).1 = none := by
  intro n
  induction n with
  | zero => intro s c o h1 h2 _; omega
  | succ n ih =>
    intro s c o h1 h2 h3
    rw [Owned.insertChunksGo]
    by_cases hc : c < s.data.length
    · rcases hi : s.insert_chunk c with ⟨r, s'⟩
      have hsome : r.isSome = true := by
        have := insert_chunk_fst_isSome (s := s) (o := c) hc
        rw [hi] at this
        exact this
      have hlen : s'.data.length = s.data.length := by
        have := Owned_insert_chunk_length s c
        rw [hi] at this
        exact this
      cases r with
      | none => simp at hsome
      | some w =>
        have hoc : o ≠ c := by omega
        exact ih s' (c + 1) o (by omega) (by omega) (by rw [hlen]; exact h3)
    · rw [Owned.insert_chunk, if_neg hc]

theorem removeChunksGo_none : ∀ (n : Nat) (s : Owned) (c o : Nat), c ≤ o → o < c + n →
    s.data.length ≤ o → (Owned.removeChunksGo n s c).1 = none := by
  intro n
  induction n with
  | zero => intro s c o h1 h2 _; omega
  | succ n ih =>
    intro s c o h1 h2 h3
    rw [Owned.removeChunksGo]
    by_cases hc : c < s.data.length
    · rcases hi : s.remove_chunk c with ⟨r, s'⟩
      have hsome : r.isSome = true := by
        have := remove_chunk_fst_isSome (s := s) (o := c) hc
        rw [hi] at this
        exact this
      have hlen : s'.data.length = s.data.length := by
        have := Owned_remove_chunk_length s c
        rw [hi] at this
        exact this
      cases r with
      | none => simp at hsome
      | some w =>
        have hoc : o ≠ c := by omega
        exact ih s' (c + 1) o (by omega) (by omega) (by rw [hlen]; exact h3)
    · rw [Owned.remove_chunk, if_neg hc]

theorem decide_or_eq (p q : Prop) [Decidable p] [Decidable q] :
    decide (p ∨ q) = (decide p || decide q) := by
  by_cases hp : p <;> by_cases hq : q <;> simp [hp, hq]

theorem insert_all_eq (s : Owned) (a b : Nat) :
    s.insert_all a b =
      qmark (Owned.insertRangeGo (min ((a / 64 + 1) * 64) b - a) s a) fun s₁ =>
        qmark (Owned.insertRangeGo (b - max ((b / 64) * 64) a) s₁ (max ((b / 64) * 64) a))
          fun s₂ => Owned.insertChunksGo (b / 64 - (a / 64 + 1)) s₂ (a / 64 + 1) := rfl

theorem remove_all_eq (s : Owned) (a b : Nat) :
    s.remove_all a b =
      qmark (Owned.removeRangeGo (min ((a / 64 + 1) * 64) b - a) s a) fun s₁ =>
        qmark (Owned.removeRangeGo (b - max ((b / 64) * 64) a) s₁ (max ((b / 64) * 64) a))
          fun s₂ => Owned.removeChunksGo (b / 64 - (a / 64 + 1)) s₂ (a / 64 + 1) := rfl

theorem insert_all_spec (s : Owned) (a b : Nat) (hab : a ≤ b)
    (hcond : ∀ v, a ≤ v → v < b → Inner.bits_to_chunk v < s.data.length) :
    (s.insert_all a b).1 = some () ∧
    ((s.insert_all a b).2).data.length = s.data.length ∧
    ∀ u, ((s.insert_all a b).2).contains u = (s.contains u || decide (a ≤ u ∧ u < b)) := by
  rw [insert_all_eq]
  set ne := min ((a / 64 + 1) * 64) b with hne
  set ns := max ((b / 64) * 64) a with hns
  have hne1 : ne ≤ b := min_le_right _ _
  have hne2 : ne ≤ (a / 64 + 1) * 64 := min_le_left _ _
  have hne3 : ne = (a / 64 + 1) * 64 ∨ ne = b := by
    rcases le_total ((a / 64 + 1) * 64) b with h | h
    · left; rw [hne, min_eq_left h]
    · right; rw [hne, min_eq_right h]
  have hns1 : (b / 64) * 64 ≤ ns := le_max_left _ _
  have hnsa : a ≤ ns := le_max_right _ _
  have hns3 : ns = (b / 64) * 64 ∨ ns = a := by
    rcases le_total ((b / 64) * 64) a with h | h
    · right; rw [hns, max_eq_right h]
    · left; rw [hns, max_eq_left h]
  have hc1 : ∀ v, a ≤ v → v < a + (ne - a) → Inner.bits_to_chunk v < s.data.length := by
    intro v h1 h2
    exact hcond v h1 (by omega)
  have h1 := insertRangeGo_some (ne - a) s a hc1
  have h1c := insertRangeGo_contains (ne - a) s a hc1
  rw [qmark_fst_some h1.1]
  set s₁ := (Owned.insertRangeGo (ne - a) s a).2 with hs₁
  have hc2 : ∀ v, ns ≤ v → v < ns + (b - ns) → Inner.bits_to_chunk v < s₁.data.length := by
    intro v hv1 hv2
    rw [h1.2]
    exact hcond v (by omega) (by omega)
  have h2 := insertRangeGo_some (b - ns) s₁ ns hc2
  have h2c := insertRangeGo_contains (b - ns) s₁ ns hc2
  rw [qmark_fst_some h2.1]
  set s₂ := (Owned.insertRangeGo (b - ns) s₁ ns).2 with hs₂
  have hc3 : ∀ o, a / 64 + 1 ≤ o → o < (a / 64 + 1) + (b / 64 - (a / 64 + 1)) →
      o < s₂.data.length := by
    intro o ho1 ho2
    rw [h2.2, h1.2]
    have hv := hcond (64 * o) (by omega) (by omega)
    have he : Inner.bits_to_chunk (64 * o) = o := by
      show 64 * o / 64 = o
      omega
    rw [he] at hv
    exact hv
  have h3 := insertChunksGo_some (b / 64 - (a / 64 + 1)) s₂ (a / 64 + 1) hc3
  have h3c := insertChunksGo_contains (b / 64 - (a / 64 + 1)) s₂ (a / 64 + 1) hc3
  refine ⟨h3.1, by rw [h3.2, h2.2, h1.2], ?_⟩
  intro u
  rw [h3c u, h2c u, h1c u]
  cases hx : s.contains u
  · simp only [Bool.false_or]
    rw [← decide_or_eq, ← decide_or_eq]
    exact decide_eq_decide.2 (by omega)
  · simp

theorem remove_all_spec (s : Owned) (a b : Nat) (hab : a ≤ b)
    (hcond : ∀ v, a ≤ v → v < b → Inner.bits_to_chunk v < s.data.length) :
    (s.remove_all a b).1 = some () ∧
    ((s.remove_all a b).2).data.length = s.data.length ∧
    ∀ u, ((s.remove_all a b).2).contains u = (s.contains u && !decide (a ≤ u ∧ u < b)) := by
  rw [remove_all_eq]
  set ne := min ((a / 64 + 1) * 64) b with hne
  set ns := max ((b / 64) * 64) a with hns
  have hne1 : ne ≤ b := min_le_right _ _
  have hne2 : ne ≤ (a / 64 + 1) * 64 := min_le_left _ _
  have hne3 : ne = (a / 64 + 1) * 64 ∨ ne = b := by
    rcases le_total ((a / 64 + 1) * 64) b with h | h
    · left; rw [hne, min_eq_left h]
    · right; rw [hne, min_eq_right h]
  have hns1 : (b / 64) * 64 ≤ ns := le_max_left _ _
  have hnsa : a ≤ ns := le_max_right _ _
  have hns3 : ns = (b / 64) * 64 ∨ ns = a := by
    rcases le_total ((b / 64) * 64) a with h | h
    · right; rw [hns, max_eq_right h]
    · left; rw [hns, max_eq_left h]
  have hc1 : ∀ v, a ≤ v → v < a + (ne - a) → Inner.bits_to_chunk v < s.data.length := by
    intro v h1 h2
    exact hcond v h1 (by omega)
  have h1 := removeRangeGo_some (ne - a) s a hc1
  have h1c := removeRangeGo_contains (ne - a) s a hc1
  rw [qmark_fst_some h1.1]
  set s₁ := (Owned.removeRangeGo (ne - a) s a).2 with hs₁
  have hc2 : ∀ v, ns ≤ v → v < ns + (b - ns) → Inner.bits_to_chunk v < s₁.data.length := by
    intro v hv1 hv2
    rw [h1.2]
    exact hcond v (by omega) (by omega)
  have h2 := removeRangeGo_some (b - ns) s₁ ns hc2
  have h2c := removeRangeGo_contains (b - ns) s₁ ns hc2
  rw [qmark_fst_some h2.1]
  set s₂ := (Owned.removeRangeGo (b - ns) s₁ ns).2 with hs₂
  have hc3 : ∀ o, a / 64 + 1 ≤ o → o < (a / 64 + 1) + (b / 64 - (a / 64 + 1)) →
      o < s₂.data.length := by
    intro o ho1 ho2
    rw [h2.2, h1.2]
    have hv := hcond (64 * o) (by omega) (by omega)
    have he : Inner.bits_to_chunk (64 * o) = o := by
      show 64 * o / 64 = o
      omega
    rw [he] at hv
    exact hv
  have h3 := removeChunksGo_some (b / 64 - (a / 64 + 1)) s₂ (a / 64 + 1) hc3
  have h3c := removeChunksGo_contains (b / 64 - (a / 64 + 1)) s₂ (a / 64 + 1) hc3
  refine ⟨h3.1, by rw [h3.2, h2.2, h1.2], ?_⟩
  intro u
  rw [h3c u, h2c u, h1c u]
  cases hx : s.contains u
  · simp
  · simp only [Bool.true_and]
    rw [← Bool.not_or, ← Bool.not_or]
    rw [← decide_or_eq, ← decide_or_eq]
    exact congrArg Bool.not (decide_eq_decide.2 (by omega))

theorem insert_all_fst_none (s : Owned) (a b v : Nat) (hv1 : a ≤ v) (hv2 : v < b)
    (hbad : s.data.length ≤ Inner.bits_to_chunk v) :
    (s.insert_all a b).1 = none := by
  have hbad' : s.data.length ≤ v / 64 := hbad
  rw [insert_all_eq]
  set ne := min ((a / 64 + 1) * 64) b with hne
  set ns := max ((b / 64) * 64) a with hns
  have hne1 : ne ≤ b := min_le_right _ _
  have hne2 : ne ≤ (a / 64 + 1) * 64 := min_le_left _ _
  have hne3 : ne = (a / 64 + 1) * 64 ∨ ne = b := by
    rcases le_total ((a / 64 + 1) * 64) b with h | h
    · left; rw [hne, min_eq_left h]
    · right; rw [hne, min_eq_right h]
  have hns1 : (b / 64) * 64 ≤ ns := le_max_left _ _
  have hnsa : a ≤ ns := le_max_right _ _
  have hns3 : ns = (b / 64) * 64 ∨ ns = a := by
    rcases le_total ((b / 64) * 64) a with h | h
    · right; rw [hns, max_eq_right h]
    · left; rw [hns, max_eq_left h]
  rcases hr1 : Owned.insertRangeGo (ne - a) s a with ⟨o1, s₁⟩
  cases o1 with
  | none => rfl
  | some u0 =>
    have hin1 : ∀ w, a ≤ w → w < a + (ne - a) → Inner.bits_to_chunk w < s.data.length := by
      intro w hw1 hw2
      by_contra hcon
      have hnone := insertRangeGo_none (ne - a) s a w hw1 hw2 (by omega)
      rw [hr1] at hnone
      exact Option.noConfusion hnone
    have hlen1 : s₁.data.length = s.data.length := by
      have := (insertRangeGo_some (ne - a) s a hin1).2
      rw [hr1] at this
      exact this
    cases u0
    show (qmark (Owned.insertRangeGo (b - ns) s₁ ns) fun s₂ =>
        Owned.insertChunksGo (b / 64 - (a / 64 + 1)) s₂ (a / 64 + 1)).1 = none
    rcases hr2 : Owned.insertRangeGo (b - ns) s₁ ns with ⟨o2, s₂⟩
    cases o2 with
    | none => rfl
    | some u1 =>
      have hin2 : ∀ w, ns ≤ w → w < ns + (b - ns) → Inner.bits_to_chunk w < s₁.data.length := by
        intro w hw1 hw2
        by_contra hcon
        have hnone := insertRangeGo_none (b - ns) s₁ ns w hw1 hw2 (by omega)
        rw [hr2] at hnone
        exact Option.noConfusion hnone
      have hlen2 : s₂.data.length = s₁.data.length := by
        have := (insertRangeGo_some (b - ns) s₁ ns hin2).2
        rw [hr2] at this
        exact this
      cases u1
      show (Owned.insertChunksGo (b / 64 - (a / 64 + 1)) s₂ (a / 64 + 1)).1 = none
      have hA : a / 64 < s.data.length := by
        have hlt : a < a + (ne - a) := by omega
        exact hin1 a (le_refl a) hlt
      have hB : ns < ns + (b - ns) → ns / 64 < s.data.length := by
        intro h
        have := hin2 ns (le_refl ns) h
        rw [hlen1] at this
        exact this
      apply insertChunksGo_none (b / 64 - (a / 64 + 1)) s₂ (a / 64 + 1) (v / 64)
      · omega
      · omega
      · rw [hlen2, hlen1]
        exact hbad'

theorem remove_all_fst_none (s : Owned) (a b v : Nat) (hv1 : a ≤ v) (hv2 : v < b)
    (hbad : s.data.length ≤ Inner.bits_to_chunk v) :
    (s.remove_all a b).1 = none := by
  have hbad' : s.data.length ≤ v / 64 := hbad
  rw [remove_all_eq]
  set ne := min ((a / 64 + 1) * 64) b with hne
  set ns := max ((b / 64) * 64) a with hns
  have hne1 : ne ≤ b := min_le_right _ _
  have hne2 : ne ≤ (a / 64 + 1) * 64 := min_le_left _ _
  have hne3 : ne = (a / 64 + 1) * 64 ∨ ne = b := by
    rcases le_total ((a / 64 + 1) * 64) b with h | h
    · left; rw [hne, min_eq_left h]
    · right; rw [hne, min_eq_right h]
  have hns1 : (b / 64) * 64 ≤ ns := le_max_left _ _
  have hnsa : a ≤ ns := le_max_right _ _
  have hns3 : ns = (b / 64) * 64 ∨ ns = a := by
    rcases le_total ((b / 64) * 64) a with h | h
    · right; rw [hns, max_eq_right h]
    · left; rw [hns, max_eq_left h]
  rcases hr1 : Owned.removeRangeGo (ne - a) s a with ⟨o1, s₁⟩
  cases o1 with
  | none => rfl
  | some u0 =>
    have hin1 : ∀ w, a ≤ w → w < a + (ne - a) → Inner.bits_to_chunk w < s.data.length := by
      intro w hw1 hw2
      by_contra hcon
      have hnone := removeRangeGo_none (ne - a) s a w hw1 hw2 (by omega)
      rw [hr1] at hnone
      exact Option.noConfusion hnone
    have hlen1 : s₁.data.length = s.data.length := by
      have := (removeRangeGo_some (ne - a) s a hin1).2
      rw [hr1] at this
      exact this
    cases u0
    show (qmark (Owned.removeRangeGo (b - ns) s₁ ns) fun s₂ =>
        Owned.removeChunksGo (b / 64 - (a / 64 + 1)) s₂ (a / 64 + 1)).1 = none
    rcases hr2 : Owned.removeRangeGo (b - ns) s₁ ns with ⟨o2, s₂⟩
    cases o2 with
    | none => rfl
    | some u1 =>
      have hin2 : ∀ w, ns ≤ w → w < ns + (b - ns) → Inner.bits_to_chunk w < s₁.data.length := by
        intro w hw1 hw2
        by_contra hcon
        have hnone := removeRangeGo_none (b - ns) s₁ ns w hw1 hw2 (by omega)
        rw [hr2] at hnone
        exact Option.noConfusion hnone
      have hlen2 : s₂.data.length = s₁.data.length := by
        have := (removeRangeGo_some (b - ns) s₁ ns hin2).2
        rw [hr2] at this
        exact this
      cases u1
      show (Owned.removeChunksGo (b / 64 - (a / 64 + 1)) s₂ (a / 64 + 1)).1 = none
      have hA : a / 64 < s.data.length := by
        have hlt : a < a + (ne - a) := by omega
        exact hin1 a (le_refl a) hlt
      have hB : ns < ns + (b - ns) → ns / 64 < s.data.length := by
        intro h
        have := hin2 ns (le_refl ns) h
        rw [hlen1] at this
        exact this
      apply removeChunksGo_none (b / 64 - (a / 64 + 1)) s₂ (a / 64 + 1) (v / 64)
      · omega
      · omega
      · rw [hlen2, hlen1]
        exact hbad'

theorem Owned_ext {s₁ s₂ : Owned} (h1 : s₁.Inv) (h2 : s₂.Inv)
    (hlen : s₁.data.length = s₂.data.length)
    (hcont : ∀ u, s₁.contains u = s₂.contains u) : s₁ = s₂ := by
  have hdata : s₁.data = s₂.data := by
    apply List.ext_getElem hlen
    intro i hi1 hi2
    apply Nat.eq_of_testBit_eq
    intro j
    by_cases hj : j < 64
    · have hc := hcont (64 * i + j)
      rw [Owned_contains_eq, Owned_contains_eq] at hc
      have hdiv : (64 * i + j) / 64 = i := by omega
      have hmod : (64 * i + j) % 64 = j := by omega
      rw [hdiv, hmod] at hc
      rw [List.getD_eq_getElem?_getD, List.getD_eq_getElem?_getD] at hc
      rw [List.getElem?_eq_getElem hi1, List.getElem?_eq_getElem hi2] at hc
      exact hc
    · have hb1 : s₁.data[i] < 2 ^ 64 := h1.2 _ (List.getElem_mem hi1)
      have hb2 : s₂.data[i] < 2 ^ 64 := h2.2 _ (List.getElem_mem hi2)
      rw [Nat.testBit_lt_two_pow
            (lt_of_lt_of_le hb1 (Nat.pow_le_pow_right (by omega) (by omega))),
          Nat.testBit_lt_two_pow
            (lt_of_lt_of_le hb2 (Nat.pow_le_pow_right (by omega) (by omega)))]
  have hlen' : s₁.len = s₂.len := by
    rw [h1.1, h2.1, hdata]
  rcases s₁ with ⟨d1, l1⟩
  rcases s₂ with ⟨d2, l2⟩
  dsimp only at hdata hlen'
  rw [hdata, hlen']

/-- C5, counterexample to the claim as stated: on a two-word set (capacity
    128), `insert_all 0 129` and the sequential loop `insert 0`, `insert 1`, …
    stopping at the first absence both fail, but leave different states: the
    source's trailing-word loop runs before the interior whole-word loop, so
    its failure at value 128 skips word 1 entirely (cardinality 64, 64 absent),
    while the sequential loop has already inserted 0..127 when it fails
    (cardinality 128, 64 present). -/
theorem C5_range_equivalence_counterexample :
    ((Owned.with_maximum 2).insert_all 0 129).1 = none ∧
    (Owned.insertRangeGo (129 - 0) (Owned.with_maximum 2) 0).1 = none ∧
    (((Owned.with_maximum 2).insert_all 0 129).2).contains 64 = false ∧
    ((Owned.insertRangeGo (129 - 0) (Owned.with_maximum 2) 0).2).contains 64 = true ∧
    (((Owned.with_maximum 2).insert_all 0 129).2).len = 64 ∧
    ((Owned.insertRangeGo (129 - 0) (Owned.with_maximum 2) 0).2).len = 128 := by decide

/-- C5 (amended): for `start ≤ end`, `insert_all(start, end)` returns the same
    result as looping the single-element `insert(v)` over `v = start, …,
    end-1` in increasing order stopping at the first absence, and whenever it
    succeeds it also produces the identical final state — hence the same
    membership for every index and the same cardinality.  `remove_all` relates
    to looped `remove` the same way.  (After a shared failure the partial
    states may differ, because the source runs the interior whole-word loop
    after the trailing-word loop rather than in value order — see the
    counterexample.) -/
theorem C5_range_equivalence (s : Owned) (a b : Nat) (hab : a ≤ b) (hInv : s.Inv) :
    ((s.insert_all a b).1 = (Owned.insertRangeGo (b - a) s a).1 ∧
      ((s.insert_all a b).1 = some () →
        (s.insert_all a b).2 = (Owned.insertRangeGo (b - a) s a).2)) ∧
    ((s.remove_all a b).1 = (Owned.removeRangeGo (b - a) s a).1 ∧
      ((s.remove_all a b).1 = some () →
        (s.remove_all a b).2 = (Owned.removeRangeGo (b - a) s a).2)) := by
  by_cases hcond : ∀ v, a ≤ v → v < b → Inner.bits_to_chunk v < s.data.length
  · have hcond' : ∀ v, a ≤ v → v < a + (b - a) → Inner.bits_to_chunk v < s.data.length := by
      intro v h1 h2
      exact hcond v h1 (by omega)
    obtain ⟨hi1, hi2, hi3⟩ := insert_all_spec s a b hab hcond
    obtain ⟨hr1, hr2, hr3⟩ := remove_all_spec s a b hab hcond
    have hsi := insertRangeGo_some (b - a) s a hcond'
    have hsr := removeRangeGo_some (b - a) s a hcond'
    have hci := insertRangeGo_contains (b - a) s a hcond'
    have hcr := removeRangeGo_contains (b - a) s a hcond'
    refine ⟨⟨by rw [hi1, hsi.1], ?_⟩, ⟨by rw [hr1, hsr.1], ?_⟩⟩
    · intro _
      apply Owned_ext (Inv_insert_all hInv a b) (Inv_insertRangeGo (b - a) s a hInv)
      · rw [hi2, hsi.2]
      · intro u
        rw [hi3 u, hci u]
        have hd : decide (a ≤ u ∧ u < a + (b - a)) = decide (a ≤ u ∧ u < b) :=
          decide_eq_decide.2 (by omega)
        rw [hd]
    · intro _
      apply Owned_ext (Inv_remove_all hInv a b) (Inv_removeRangeGo (b - a) s a hInv)
      · rw [hr2, hsr.2]
      · intro u
        rw [hr3 u, hcr u]
        have hd : decide (a ≤ u ∧ u < a + (b - a)) = decide (a ≤ u ∧ u < b) :=
          decide_eq_decide.2 (by omega)
        rw [hd]
  · push_neg at hcond
    obtain ⟨v, hv1, hv2, hv3'⟩ := hcond
    have hni := insert_all_fst_none s a b v hv1 hv2 hv3'
    have hnr := remove_all_fst_none s a b v hv1 hv2 hv3'
    have hnsi := insertRangeGo_none (b - a) s a v hv1 (by omega) hv3'
    have hnsr := removeRangeGo_none (b - a) s a v hv1 (by omega) hv3'
    refine ⟨⟨by rw [hni, hnsi], ?_⟩, ⟨by rw [hnr, hnsr], ?_⟩⟩
    · intro hcontra
      rw [hni] at hcontra
      exact Option.noConfusion hcontra
    · intro hcontra
      rw [hnr] at hcontra
      exact Option.noConfusion hcontra

/-- Witness for C5 on a three-word set and the range `[3, 130)`, which
    exercises all three loops of the bulk operations and succeeds. -/
theorem C5_range_equivalence_witness :
    ((3 : Nat) ≤ 130 ∧ (Owned.with_maximum 3).Inv) ∧
    ((((Owned.with_maximum 3).insert_all 3 130).1
        = (Owned.insertRangeGo (130 - 3) (Owned.with_maximum 3) 3).1 ∧
      (((Owned.with_maximum 3).insert_all 3 130).1 = some () →
        ((Owned.with_maximum 3).insert_all 3 130).2
          = (Owned.insertRangeGo (130 - 3) (Owned.with_maximum 3) 3).2)) ∧
     (((Owned.with_maximum 3).remove_all 3 130).1
        = (Owned.removeRangeGo (130 - 3) (Owned.with_maximum 3) 3).1 ∧
      (((Owned.with_maximum 3).remove_all 3 130).1 = some () →
        ((Owned.with_maximum 3).remove_all 3 130).2
          = (Owned.removeRangeGo (130 - 3) (Owned.with_maximum 3) 3).2))) :=
  ⟨⟨by omega, Inv_with_maximum 3⟩,
    C5_range_equivalence (Owned.with_maximum 3) 3 130 (by omega) (Inv_with_maximum 3)⟩
